import Mathlib

/-!
# Gosh-Fetch / gosh-dl — verification of the core download engine

Shallow embedding of the `gosh-dl` crate (the download engine of the
Gosh-Fetch repository) in Lean 4, together with proofs about the claims
of the specification.

Sources embedded here:
 * `src/gosh-dl/src/torrent/piece.rs`   — `PendingPiece`, `PieceManager`
 * `src/gosh-dl/src/http/segment.rs`    — segment partitioning, status
   handling, `.part` naming, the join phase of `start`
 * `src/gosh-dl/src/engine.rs`          — `resume`, `cancel`, state updates
 * `src/gosh-dl/src/storage/sqlite.rs`  — `save_download` upsert semantics
 * `src/gosh-dl/src/config.rs`          — configuration records

Parts of the crate that are not present under `src/` (`error.rs`,
`types.rs`, `torrent/metainfo.rs`, `torrent/peer.rs`, `storage/mod.rs`)
are modelled from the specification; each such definition carries a doc
comment starting with `Modelled from the spec:`.

Conventions of the embedding:
 * machine integers (`u32`, `u64`, `usize`) become `Nat`; none of the
   embedded computations can overflow at the sizes involved, and Rust's
   `saturating_sub` coincides with truncated `Nat` subtraction;
 * `HashMap` becomes an association list (`List (Nat × _)`) with
   insert-replaces semantics;
 * fallible functions return `Except EngineError _`;
 * filesystem side effects are represented by an explicit trace of
   `FileOp` values, and file contents by a function
   `List Component → Option (List Nat)`;
 * SHA-1 is a parameter (`sha1 : List Nat → List Nat`): every theorem
   about verification holds for an arbitrary hash function.
-/

namespace GoshDL

/-! ## Error model

Modelled from the spec: the error taxonomy of §7 (`error.rs` is not part
of the provided sources).  Only the constructors used by the embedded
code are included. -/

/-- Modelled from the spec: `Protocol{kind}` error kinds (§7). -/
inductive ProtocolErrorKind where
  | invalidTorrent
  | peerProtocol
  | handshakeFailed
  deriving DecidableEq, Repr

/-- Modelled from the spec: `Network{kind}` error kinds (§7). -/
inductive NetworkErrorKind where
  | timeout
  | dns
  | tls
  | httpStatus (code : Nat)
  | other
  deriving DecidableEq, Repr

/-- Modelled from the spec: `Storage{kind}` error kinds (§7). -/
inductive StorageErrorKind where
  | io
  | allocFailed
  | permissionDenied
  deriving DecidableEq, Repr

/-- Modelled from the spec: the `EngineError` taxonomy of §7.
`invalidState` carries the structured state-describing string produced by
the caller (the Rust code stores `format!("{:?}", state)`). -/
inductive EngineError where
  | invalidInput (field message : String)
  | notFound (id : String)
  | invalidState (action currentState : String)
  | network (kind : NetworkErrorKind) (message : String)
  | storage (kind : StorageErrorKind) (message : String)
  | protocol (kind : ProtocolErrorKind) (message : String)
  | shutdown
  | internal (message : String)
  | database (message : String)
  deriving DecidableEq, Repr

/-- Embeds `EngineError::protocol(kind, msg)` constructor helper, as in `error.rs`'s
call sites in `piece.rs`. -/
def EngineError.mkProtocol (kind : ProtocolErrorKind) (message : String) :
    EngineError :=
  EngineError.protocol kind message

/-- Is this a `Protocol` error of kind `InvalidTorrent`? -/
def EngineError.isInvalidTorrent : EngineError → Bool
  | EngineError.protocol ProtocolErrorKind.invalidTorrent _ => true
  | _ => false

/-! ## HTTP segment partitioning (`src/gosh-dl/src/http/segment.rs`) -/

/-- Modelled from the spec: segment states (§3, `storage/mod.rs` is not in
the provided sources). -/
inductive SegmentState where
  | pending
  | downloading
  | completed
  | failed (error : String) (retries : Nat)
  deriving DecidableEq, Repr

/-- Modelled from the spec: the HTTP `Segment` record of §3
(`storage/mod.rs` is not in the provided sources).  Field `end_` renders
Rust's `end` (a Lean keyword). -/
structure Segment where
  index : Nat
  start : Nat
  end_ : Nat
  downloaded : Nat
  state : SegmentState
  deriving DecidableEq, Repr

/-- Modelled from the spec: `Segment::new(index, start, end)` creates a
pending segment with nothing downloaded (used by `init_segments` and the
`sqlite.rs` tests). -/
def Segment.new (index start end_ : Nat) : Segment :=
  { index := index, start := start, end_ := end_,
    downloaded := 0, state := SegmentState.pending }

/-- Embeds `calculate_segment_count` from `segment.rs` (lines 518–535). -/
def calculate_segment_count (total_size max_connections min_segment_size : Nat) :
    Nat :=
  if total_size = 0 then 1
  else
    let max_segments_by_size := total_size / min_segment_size
    let num_segments := min max_connections (max max_segments_by_size 1)
    max num_segments 1

/-- Embeds `SegmentedDownload::init_segments` from `segment.rs` (lines 110–126),
as a function of the download's `total_size` and the two parameters. -/
def init_segments (total_size max_connections min_segment_size : Nat) :
    List Segment :=
  let num_segments := calculate_segment_count total_size max_connections
    min_segment_size
  let segment_size := total_size / num_segments
  (List.range num_segments).map (fun i =>
    Segment.new i (i * segment_size)
      (if i = num_segments - 1 then total_size - 1
       else (i + 1) * segment_size - 1))

/-! ## Paths and path components

Rust's `std::path::Component` enumeration, abstracted: the embedding
represents a path directly as its list of components (what
`Path::components()` yields), since the Rust code only ever walks the
component list.  The constructor for `Component::Prefix` is called
`prefixC` here. -/

/-- One path component, mirroring `std::path::Component`. -/
inductive Component where
  | prefixC (s : String)
  | rootDir
  | curDir
  | parentDir
  | normal (s : String)
  deriving DecidableEq, Repr

/-- A path, represented by its component list. -/
abbrev RPath := List Component

/-- Association-list lookup (`HashMap::get`): the value stored under a
key. -/
def lookupKey {α : Type} (k : Nat) : List (Nat × α) → Option α
  | [] => none
  | kv :: rest => if kv.1 = k then some kv.2 else lookupKey k rest

/-- Decidable equality for `Except` results, so that concrete runs of the
embedded fallible functions can be checked by `decide`. -/
instance {ε α : Type} [DecidableEq ε] [DecidableEq α] :
    DecidableEq (Except ε α) := fun x y =>
  match x, y with
  | Except.ok a, Except.ok b =>
      if h : a = b then isTrue (by rw [h])
      else isFalse (by intro e; injection e; contradiction)
  | Except.error a, Except.error b =>
      if h : a = b then isTrue (by rw [h])
      else isFalse (by intro e; injection e; contradiction)
  | Except.ok _, Except.error _ => isFalse (fun e => Except.noConfusion e)
  | Except.error _, Except.ok _ => isFalse (fun e => Except.noConfusion e)

/-- Does the component get rejected by `validate_path_component`?
(`ParentDir`, `RootDir` and `Prefix` are the rejected cases.) -/
def Component.isRejected : Component → Bool
  | Component.parentDir => true
  | Component.rootDir => true
  | Component.prefixC _ => true
  | _ => false

/-- Does a component list contain a rejected component? -/
def hasRejectedComponent (p : RPath) : Bool :=
  p.any Component.isRejected

/-- Embeds `PieceManager::validate_path_component` from `piece.rs`
(lines 386–404). -/
def validate_path_component (c : Component) : Except EngineError Unit :=
  match c with
  | Component.parentDir =>
      Except.error (EngineError.mkProtocol ProtocolErrorKind.invalidTorrent
        "Invalid torrent: file path contains parent directory reference (..)")
  | Component.rootDir =>
      Except.error (EngineError.mkProtocol ProtocolErrorKind.invalidTorrent
        "Invalid torrent: file path contains absolute path")
  | Component.prefixC _ =>
      Except.error (EngineError.mkProtocol ProtocolErrorKind.invalidTorrent
        "Invalid torrent: file path contains absolute path")
  | _ => Except.ok ()

/-- The `for component in path.components() { validate_path_component(..)? }`
loops of `write_piece` and `verify_piece_on_disk`. -/
def validateComponents : RPath → Except EngineError Unit
  | [] => Except.ok ()
  | c :: rest =>
      match validate_path_component c with
      | Except.error e => Except.error e
      | Except.ok _ => validateComponents rest

/-! ## Torrent metainfo

`torrent/metainfo.rs` is not among the provided sources; the records and
accessors below are modelled from the spec (§4.3 Inputs). -/

/-- A SHA-1 digest, as a byte list. -/
abbrev Sha1Hash := List Nat

/-- Modelled from the spec: one `(relative-path, length)` file entry of a
parsed Metainfo (§4.3). -/
structure FileInfo where
  path : RPath
  length : Nat
  deriving DecidableEq, Repr

/-- Modelled from the spec: the `info` dictionary of a parsed Metainfo
(§4.3): name, file list, single-file flag, piece length, piece hashes,
total size.  `total_size = Σ file.length` is recorded as a field, as in
the source's `info.total_size`. -/
structure Info where
  name : RPath
  files : List FileInfo
  is_single_file : Bool
  piece_length : Nat
  pieces : List Sha1Hash
  total_size : Nat
  deriving DecidableEq, Repr

/-- Modelled from the spec: a parsed Metainfo (§4.3). -/
structure Metainfo where
  info : Info
  deriving DecidableEq, Repr

/-- Modelled from the spec: `Metainfo::piece_length(i)`, the byte length
of piece `i`: piece `i` covers
`[i·piece_length, min((i+1)·piece_length, total_size))` (§4.3). -/
def Metainfo.pieceLength (m : Metainfo) (i : Nat) : Option Nat :=
  if i < m.info.pieces.length then
    some (min ((i + 1) * m.info.piece_length) m.info.total_size -
      i * m.info.piece_length)
  else
    none

/-- Modelled from the spec: `Metainfo::piece_hash(i)` (§4.3). -/
def Metainfo.pieceHash (m : Metainfo) (i : Nat) : Option Sha1Hash :=
  m.info.pieces.get? i

/-- Helper for `files_for_piece`: walk the file list with the cumulative
byte offset, intersecting each file's span with the piece's span
`[pstart, pend)`.  Yields `(file, offset-within-file, length)` triples. -/
def filesForPieceGo : List FileInfo → Nat → Nat → Nat →
    List (FileInfo × Nat × Nat)
  | [], _, _, _ => []
  | f :: rest, cum, pstart, pend =>
      let fstart := cum
      let fend := cum + f.length
      let s := max pstart fstart
      let e := min pend fend
      (if s < e then [(f, s - fstart, e - s)] else []) ++
        filesForPieceGo rest (cum + f.length) pstart pend

/-- Modelled from the spec: `Metainfo::files_for_piece(i)` — the
`(file, file_offset, length)` slices of piece `i` laid out over the
concatenation of files in declaration order (§4.3).  The embedding
returns the `FileInfo` itself instead of its index into `info.files`. -/
def Metainfo.filesForPiece (m : Metainfo) (i : Nat) : List (FileInfo × Nat × Nat) :=
  filesForPieceGo m.info.files 0 (i * m.info.piece_length)
    (min ((i + 1) * m.info.piece_length) m.info.total_size)

/-! ## Filesystem trace -/

/-- One filesystem operation performed by the piece engine.  `write_piece`
emits `createDirAll`/`openWrite`/`write`; `verify_piece_on_disk` emits
`openRead`. -/
inductive FileOp where
  | createDirAll (path : RPath)
  | openWrite (path : RPath)
  | write (path : RPath) (offset length : Nat)
  | openRead (path : RPath)
  deriving DecidableEq, Repr

/-- The path an operation touches. -/
def FileOp.path : FileOp → RPath
  | FileOp.createDirAll p => p
  | FileOp.openWrite p => p
  | FileOp.write p _ _ => p
  | FileOp.openRead p => p

/-- Is the operation one that opens or creates a *file* (as opposed to a
directory)? -/
def FileOp.touchesFile : FileOp → Bool
  | FileOp.createDirAll _ => false
  | _ => true

/-- The path-construction-with-validation block shared by `write_piece`
(piece.rs lines 415–433) and `verify_piece_on_disk` (lines 552–569):
single-file mode validates the torrent name and joins `save_dir/name`;
multi-file mode additionally validates the file's relative path and joins
`save_dir/name/relative-path`. -/
def buildFilePath (m : Metainfo) (save_dir : RPath) (f : FileInfo) :
    Except EngineError RPath :=
  if m.info.is_single_file then
    match validateComponents m.info.name with
    | Except.error e => Except.error e
    | Except.ok _ => Except.ok (save_dir ++ m.info.name)
  else
    match validateComponents m.info.name with
    | Except.error e => Except.error e
    | Except.ok _ =>
        match validateComponents f.path with
        | Except.error e => Except.error e
        | Except.ok _ => Except.ok (save_dir ++ m.info.name ++ f.path)

/-- The loop body sequence of `PieceManager::write_piece` (piece.rs lines
407–459) over the file slices of a piece: validate and build each path,
create parent directories, open-or-create without truncation, seek, and
write the slice.  Returns the trace of filesystem operations performed
before any failure, and the error if one occurred. -/
def writePieceGo (m : Metainfo) (save_dir : RPath) :
    List (FileInfo × Nat × Nat) → List FileOp × Option EngineError
  | [] => ([], none)
  | (f, file_offset, length) :: rest =>
      match buildFilePath m save_dir f with
      | Except.error e => ([], some e)
      | Except.ok file_path =>
          let ops := [FileOp.createDirAll file_path.dropLast,
            FileOp.openWrite file_path,
            FileOp.write file_path file_offset length]
          let r := writePieceGo m save_dir rest
          (ops ++ r.1, r.2)

/-- Embeds `PieceManager::write_piece` (piece.rs lines 407–459), as the trace of
filesystem operations it performs and the error it returns, if any.
Filesystem failures of `create_dir_all`/`open`/`seek`/`write` themselves
are not modelled: the only modelled failure is path validation. -/
def write_piece (m : Metainfo) (save_dir : RPath) (index : Nat) :
    List FileOp × Option EngineError :=
  writePieceGo m save_dir (m.filesForPiece index)

/-- Read `length` bytes at `offset` from a file's contents; `none` when
the file is too short (Rust's `read_exact` failing). -/
def readExactAt (content : List Nat) (offset length : Nat) :
    Option (List Nat) :=
  if offset + length ≤ content.length then
    some ((content.drop offset).take length)
  else
    none

/-- The loop of `PieceManager::verify_piece_on_disk` (piece.rs lines
547–584) over the file slices of a piece, accumulating the piece bytes.
`fs` maps a path to the contents of the file stored there (`none` = the
file does not exist).  Returns the trace of filesystem operations and
either an error (path validation) or `none` (a file was missing or short:
the piece is absent) or the accumulated bytes. -/
def verifyPieceGo (fs : RPath → Option (List Nat)) (m : Metainfo)
    (save_dir : RPath) :
    List (FileInfo × Nat × Nat) → List FileOp × Except EngineError (Option (List Nat))
  | [] => ([], Except.ok (some []))
  | (f, file_offset, length) :: rest =>
      match buildFilePath m save_dir f with
      | Except.error e => ([], Except.error e)
      | Except.ok file_path =>
          match fs file_path with
          | none => ([FileOp.openRead file_path], Except.ok none)
          | some content =>
              match readExactAt content file_offset length with
              | none => ([FileOp.openRead file_path], Except.ok none)
              | some bytes =>
                  let r := verifyPieceGo fs m save_dir rest
                  (FileOp.openRead file_path :: r.1,
                    match r.2 with
                    | Except.error e => Except.error e
                    | Except.ok none => Except.ok none
                    | Except.ok (some more) => Except.ok (some (bytes ++ more)))

/-- Embeds `PieceManager::verify_piece_on_disk` (piece.rs lines 536–592):
read the piece's byte spans from disk (missing or short file ⇒
`Ok(false)`), hash, and compare to the expected piece hash.  `sha1` is
the hash function parameter. -/
def verify_piece_on_disk (sha1 : List Nat → Sha1Hash)
    (fs : RPath → Option (List Nat)) (m : Metainfo) (save_dir : RPath)
    (index : Nat) : List FileOp × Except EngineError Bool :=
  match m.pieceHash index with
  | none => ([], Except.ok false)
  | some expected_hash =>
      match m.pieceLength index with
      | none => ([], Except.ok false)
      | some _ =>
          let r := verifyPieceGo fs m save_dir (m.filesForPiece index)
          (r.1,
            match r.2 with
            | Except.error e => Except.error e
            | Except.ok none => Except.ok false
            | Except.ok (some piece_data) =>
                Except.ok (sha1 piece_data = expected_hash))

/-! ## PendingPiece (`src/gosh-dl/src/torrent/piece.rs`) -/

/-- Modelled from the spec: `BLOCK_SIZE`, the 16 KiB protocol block size
(`torrent/peer.rs` is not in the provided sources; §3 and the glossary fix
it at 16 KiB). -/
def BLOCK_SIZE : Nat := 16384

/-- Embeds `PendingPiece` from `piece.rs` (lines 45–62).  The `started_at`
timestamp is not representable in a pure embedding and is omitted; no
embedded operation reads it.  `requested_blocks` maps block index to the
requesting peer. -/
structure PendingPiece where
  index : Nat
  length : Nat
  blocks : List (Option (List Nat))
  block_size : Nat
  blocks_received : Nat
  requested_blocks : List (Nat × Nat)
  deriving DecidableEq, Repr

/-- Embeds `PendingPiece::new` (piece.rs lines 65–79). -/
def PendingPiece.new (index piece_length : Nat) : PendingPiece :=
  let num_blocks := (piece_length + BLOCK_SIZE - 1) / BLOCK_SIZE
  { index := index
    length := piece_length
    blocks := List.replicate num_blocks none
    block_size := BLOCK_SIZE
    blocks_received := 0
    requested_blocks := [] }

/-- The expected-size computation of `add_block` (piece.rs lines
100–106): the last block slot may be short. -/
def expectedBlockSize (p : PendingPiece) (offset : Nat) : Nat :=
  if offset / p.block_size = p.blocks.length - 1 then
    min (p.length - offset) p.block_size
  else
    p.block_size

/-- Embeds `PendingPiece::add_block` (piece.rs lines 82–127).  Returns the `bool`
the Rust method returns, paired with the updated piece (`&mut self`). -/
def PendingPiece.add_block (p : PendingPiece) (offset : Nat)
    (data : List Nat) : Bool × PendingPiece :=
  let block_index := offset / p.block_size
  if block_index ≥ p.blocks.length then
    (false, p)
  else if ¬ (offset % p.block_size = 0) then
    (false, p)
  else
    let expected_size := expectedBlockSize p offset
    if data.length ≠ expected_size then
      (false, p)
    else
      let was_empty := (p.blocks.getD block_index none).isNone
      (true,
        { p with
          blocks := p.blocks.set block_index (some data)
          blocks_received :=
            if was_empty then p.blocks_received + 1 else p.blocks_received
          requested_blocks :=
            p.requested_blocks.filter (fun kv => kv.1 ≠ block_index) })

/-- Embeds `PendingPiece::is_complete` (piece.rs lines 130–132). -/
def PendingPiece.is_complete (p : PendingPiece) : Bool :=
  p.blocks_received = p.blocks.length

/-- Concatenate the block contents; `none` if any block is missing. -/
def collectBlocks : List (Option (List Nat)) → Option (List Nat)
  | [] => some []
  | none :: _ => none
  | some b :: rest => (collectBlocks rest).map (fun t => b ++ t)

/-- Embeds `PendingPiece::data` (piece.rs lines 135–153): `none` unless complete,
else the concatenation of all blocks truncated to the piece length. -/
def PendingPiece.data (p : PendingPiece) : Option (List Nat) :=
  if ¬ p.is_complete then none
  else (collectBlocks p.blocks).map (fun d => d.take p.length)

/-- Embeds `PendingPiece::mark_requested` (piece.rs lines 178–180):
`HashMap::insert`, i.e. replace any existing entry for the block. -/
def PendingPiece.mark_requested (p : PendingPiece) (block_index peer_id : Nat) :
    PendingPiece :=
  { p with requested_blocks :=
      (block_index, peer_id) ::
        p.requested_blocks.filter (fun kv => kv.1 ≠ block_index) }

/-! ## PieceManager (`src/gosh-dl/src/torrent/piece.rs`) -/

/-- Embeds `PieceManager` from `piece.rs` (lines 25–43), with the lock and atomic
wrappers erased.  `have_` renders the Rust field `have`. -/
structure PieceManager where
  metainfo : Metainfo
  save_dir : RPath
  have_ : List Bool
  pending : List (Nat × PendingPiece)
  verified_count : Nat
  verified_bytes : Nat
  piece_availability : List Nat
  deriving Repr

/-- Embeds `PieceManager::new` (piece.rs lines 196–208). -/
def PieceManager.new (metainfo : Metainfo) (save_dir : RPath) : PieceManager :=
  let num_pieces := metainfo.info.pieces.length
  { metainfo := metainfo
    save_dir := save_dir
    have_ := List.replicate num_pieces false
    pending := []
    verified_count := 0
    verified_bytes := 0
    piece_availability := List.replicate num_pieces 0 }

/-- Embeds `PieceManager::num_pieces` (piece.rs lines 211–213). -/
def PieceManager.num_pieces (pm : PieceManager) : Nat :=
  pm.metainfo.info.pieces.length

/-- Embeds `PieceManager::have_piece` (piece.rs lines 216–218):
`have.get(index).map(|b| *b).unwrap_or(false)`. -/
def PieceManager.have_piece (pm : PieceManager) (index : Nat) : Bool :=
  pm.have_.getD index false

/-- Remove a key from the pending map (`HashMap::remove`). -/
def removePending (index : Nat) (pending : List (Nat × PendingPiece)) :
    List (Nat × PendingPiece) :=
  pending.filter (fun kv => kv.1 ≠ index)

/-- Insert (replacing) into the pending map (`HashMap::insert`). -/
def insertPending (index : Nat) (piece : PendingPiece)
    (pending : List (Nat × PendingPiece)) : List (Nat × PendingPiece) :=
  (index, piece) :: removePending index pending

/-- The saturating availability update of
`PieceManager::update_availability` (piece.rs lines 239–251), walking the
peer's bitfield and the availability vector in parallel.  Out-of-range
asserted bits are ignored (the Rust code would index out of bounds there;
`update_availability` is only called with bitfields sized to the piece
count). -/
def updateAvailGo : List Nat → List Bool → Bool → List Nat
  | avail, [], _ => avail
  | [], _, _ => []
  | c :: cs, has :: ps, add =>
      (if has then (if add then c + 1 else c - 1) else c) ::
        updateAvailGo cs ps add

/-- Embeds `PieceManager::update_availability` (piece.rs lines 239–251). -/
def PieceManager.update_availability (pm : PieceManager)
    (peer_pieces : List Bool) (add : Bool) : PieceManager :=
  { pm with piece_availability :=
      updateAvailGo pm.piece_availability peer_pieces add }

/-- The candidate list of `PieceManager::select_piece` (piece.rs lines
262–276): pieces we neither have nor are downloading and that the peer
has, paired with their availability, in index order. -/
def PieceManager.selectCandidates (pm : PieceManager) (peer_has : List Bool) :
    List (Nat × Nat) :=
  (List.range pm.num_pieces).filterMap (fun i =>
    if pm.have_.getD i false ∨ (lookupKey i pm.pending).isSome then none
    else if ¬ peer_has.getD i false then none
    else some (i, pm.piece_availability.getD i 0))

/-- Stable insertion into a list sorted by the second component: the new
element goes before the first element whose key is not smaller.  This is
the stable-sort building block mirroring Rust's stable
`sort_by_key(|&(_, count)| count)`. -/
def insertByAvail (x : Nat × Nat) : List (Nat × Nat) → List (Nat × Nat)
  | [] => [x]
  | y :: ys => if y.2 < x.2 then y :: insertByAvail x ys else x :: y :: ys

/-- Stable sort by the second component (insertion sort; Rust's
`sort_by_key` is a stable sort, so the two agree on the relative order of
equal keys). -/
def sortByAvail : List (Nat × Nat) → List (Nat × Nat)
  | [] => []
  | x :: xs => insertByAvail x (sortByAvail xs)

/-- Embeds `PieceManager::select_piece` (piece.rs lines 256–287): build the
candidate list, stable-sort by availability, return the first index. -/
def PieceManager.select_piece (pm : PieceManager) (peer_has : List Bool) :
    Option Nat :=
  let candidates := pm.selectCandidates peer_has
  match sortByAvail candidates with
  | [] => none
  | c :: _ => some c.1

/-- The earliest element of a pair list with minimal second component
(specification device for the head of a stable sort by key). -/
def firstMin : List (Nat × Nat) → Option (Nat × Nat)
  | [] => none
  | x :: xs =>
      match firstMin xs with
      | none => some x
      | some m => if m.2 < x.2 then some m else some x

/-- Piece `i` is a selection candidate for a peer: in range, not held,
not pending, and offered by the peer (the filters of piece.rs lines
264–275). -/
def isCandidate (pm : PieceManager) (peer_has : List Bool) (i : Nat) : Prop :=
  i < pm.num_pieces ∧ pm.have_.getD i false = false ∧
    lookupKey i pm.pending = none ∧ peer_has.getD i false = true

/-- Candidacy is decidable, so concrete witnesses can be checked by
`decide`. -/
instance (pm : PieceManager) (peer_has : List Bool) (i : Nat) :
    Decidable (isCandidate pm peer_has i) :=
  inferInstanceAs (Decidable (i < pm.num_pieces ∧
    pm.have_.getD i false = false ∧ lookupKey i pm.pending = none ∧
    peer_has.getD i false = true))

/-- Embeds `PieceManager::start_piece` (piece.rs lines 290–307): create a fresh
`PendingPiece` and insert it into the pending map; returns a fresh copy
(blocks cleared) as the Rust code does. -/
def PieceManager.start_piece (pm : PieceManager) (index : Nat) :
    Option PendingPiece × PieceManager :=
  match pm.metainfo.pieceLength index with
  | none => (none, pm)
  | some piece_length =>
      let piece := PendingPiece.new index piece_length
      (some piece, { pm with pending := insertPending index piece pm.pending })

/-- Embeds `PieceManager::add_block` (piece.rs lines 310–328). -/
def PieceManager.add_block (pm : PieceManager) (index offset : Nat)
    (data : List Nat) : Except EngineError (Bool × PieceManager) :=
  match lookupKey index pm.pending with
  | none =>
      Except.error (EngineError.mkProtocol ProtocolErrorKind.peerProtocol
        "Received block for unknown piece")
  | some piece =>
      let r := piece.add_block offset data
      if ¬ r.1 then
        Except.error (EngineError.mkProtocol ProtocolErrorKind.peerProtocol
          "Invalid block offset for piece")
      else
        Except.ok (r.2.is_complete,
          { pm with pending := insertPending index r.2 pm.pending })

/-- Embeds `PieceManager::verify_and_save` (piece.rs lines 331–384): assemble the
pending piece's data, compare its SHA-1 against the metainfo hash; on
mismatch remove the piece from pending and return `false`; on match write
the piece (path validation may fail), set the have-bit, remove from
pending and bump the counters. -/
def PieceManager.verify_and_save (sha1 : List Nat → Sha1Hash)
    (pm : PieceManager) (index : Nat) :
    Except EngineError (Bool × PieceManager) :=
  match lookupKey index pm.pending with
  | none =>
      Except.error (EngineError.mkProtocol ProtocolErrorKind.peerProtocol
        "Piece not found in pending")
  | some piece =>
      match piece.data with
      | none =>
          Except.error (EngineError.mkProtocol ProtocolErrorKind.peerProtocol
            "Piece is incomplete")
      | some data =>
          match pm.metainfo.pieceHash index with
          | none =>
              Except.error (EngineError.mkProtocol
                ProtocolErrorKind.invalidTorrent "No hash for piece")
          | some expected_hash =>
              if sha1 data ≠ expected_hash then
                Except.ok (false,
                  { pm with pending := removePending index pm.pending })
              else
                match (write_piece pm.metainfo pm.save_dir index).2 with
                | some e => Except.error e
                | none =>
                    Except.ok (true,
                      { pm with
                        have_ := pm.have_.set index true
                        pending := removePending index pm.pending
                        verified_count := pm.verified_count + 1
                        verified_bytes := pm.verified_bytes + data.length })

/-- Embeds `PieceManager::cancel_piece` (piece.rs lines 462–464). -/
def PieceManager.cancel_piece (pm : PieceManager) (index : Nat) :
    PieceManager :=
  { pm with pending := removePending index pm.pending }

/-- Embeds `PieceManager::mark_block_requested` (piece.rs lines 486–491). -/
def PieceManager.mark_block_requested (pm : PieceManager)
    (piece block_index peer_id : Nat) : PieceManager :=
  match lookupKey piece pm.pending with
  | none => pm
  | some p =>
      let p' := p.mark_requested block_index peer_id
      { pm with pending := insertPending piece p' pm.pending }

/-- The loop of `PieceManager::verify_existing` (piece.rs lines 516–533)
over piece indices, threading `(valid_count, pm)`. -/
def verifyExistingGo (sha1 : List Nat → Sha1Hash)
    (fs : RPath → Option (List Nat)) :
    List Nat → Nat → PieceManager → Except EngineError (Nat × PieceManager)
  | [], valid_count, pm => Except.ok (valid_count, pm)
  | index :: rest, valid_count, pm =>
      match (verify_piece_on_disk sha1 fs pm.metainfo pm.save_dir index).2 with
      | Except.error e => Except.error e
      | Except.ok false => verifyExistingGo sha1 fs rest valid_count pm
      | Except.ok true =>
          let piece_len := (pm.metainfo.pieceLength index).getD 0
          verifyExistingGo sha1 fs rest (valid_count + 1)
            { pm with
              have_ := pm.have_.set index true
              verified_bytes := pm.verified_bytes + piece_len }

/-- Embeds `PieceManager::verify_existing` (piece.rs lines 516–533): verify every
piece on disk, set the have-bit for each match, count them, and store the
count in `verified_count`. -/
def PieceManager.verify_existing (sha1 : List Nat → Sha1Hash)
    (fs : RPath → Option (List Nat)) (pm : PieceManager) :
    Except EngineError (Nat × PieceManager) :=
  match verifyExistingGo sha1 fs (List.range pm.num_pieces) 0 pm with
  | Except.error e => Except.error e
  | Except.ok (valid_count, pm') =>
      Except.ok (valid_count, { pm' with verified_count := valid_count })

/-! ## HTTP segment tasks (`src/gosh-dl/src/http/segment.rs`) -/

/-- Embeds `reqwest::StatusCode::is_success`: the 2xx range. -/
def isSuccessStatus (status : Nat) : Bool :=
  decide (200 ≤ status ∧ status < 300)

/-- The response-status handling of a segment task in
`SegmentedDownload::start` (segment.rs lines 240–247):
`if !status.is_success() && status != PARTIAL_CONTENT` fail with a
network error tagged `HttpStatus(code)`, otherwise continue streaming. -/
def segmentStatusCheck (status : Nat) : Except EngineError Unit :=
  if ¬ isSuccessStatus status ∧ status ≠ 206 then
    Except.error (EngineError.network (NetworkErrorKind.httpStatus status)
      "Segment HTTP error")
  else
    Except.ok ()

/-- The acceptance rule as the specification words it (§4.2): `206` is
accepted, `200` only when the segment's effective start offset
(`start + already_downloaded`) is zero. -/
def specStatusAccepted (status resume_start : Nat) : Bool :=
  decide (status = 206 ∨ (status = 200 ∧ resume_start = 0))

/-- The handle-joining loop of `SegmentedDownload::start` (segment.rs
lines 352–357): `for handle in handles { if let Err(e) = handle.await
{ tracing::error!(..) } }`.  Only join panics are logged; the task's own
`Result` value (the list elements here) is never inspected. -/
def awaitSegmentHandles : List (Except EngineError Unit) → Unit
  | [] => ()
  | _ :: rest => awaitSegmentHandles rest

/-- The completion phase of `SegmentedDownload::start` after spawning
(segment.rs lines 352–397): join all segment tasks (discarding their
results), flush and sync (modelled as succeeding), then finalize (rename
`.part`) exactly when `total_downloaded >= total_size`.  Returns whether
`finalize` was invoked, and `start`'s own result. -/
def startJoinPhase (task_results : List (Except EngineError Unit))
    (total_downloaded total_size : Nat) : Bool × Except EngineError Unit :=
  let _u : Unit := awaitSegmentHandles task_results
  (decide (total_size ≤ total_downloaded), Except.ok ())

/-! ## Path strings: `extension` / `with_extension` / `.part` naming

Rust `std::path` semantics for the operations the code uses, on paths
represented as strings with `/` separators. -/

/-- Split a character list around its *last* occurrence of `sep`:
`some (before, after)`, or `none` when `sep` does not occur. -/
def lastSplitChar (sep : Char) : List Char → Option (List Char × List Char)
  | [] => none
  | c :: rest =>
      match lastSplitChar sep rest with
      | some (st, ex) => some (c :: st, ex)
      | none => if c = sep then some ([], rest) else none

/-- Embeds `Path::file_name` on a string path: everything after the last `/`. -/
def fileNameCs (cs : List Char) : List Char :=
  match lastSplitChar '/' cs with
  | some (_, fn) => fn
  | none => cs

/-- Replace the final component of a path. -/
def replaceFileNameCs (cs new_fn : List Char) : List Char :=
  match lastSplitChar '/' cs with
  | some (dir, _) => dir ++ '/' :: new_fn
  | none => new_fn

/-- Embeds `Path::extension` on a file name: the portion after the final `.`;
`none` when there is no `.`, or when the only `.` is the leading one of a
hidden file. -/
def extensionOfFileName (fn : List Char) : Option (List Char) :=
  match fn with
  | '.' :: rest => (lastSplitChar '.' rest).map (fun p => p.2)
  | _ => (lastSplitChar '.' fn).map (fun p => p.2)

/-- Embeds `Path::file_stem` on a file name: the portion before the final `.`
(the whole name when there is no extension). -/
def stemOfFileName (fn : List Char) : List Char :=
  match fn with
  | '.' :: rest =>
      match lastSplitChar '.' rest with
      | some (st, _) => '.' :: st
      | none => fn
  | _ =>
      match lastSplitChar '.' fn with
      | some (st, _) => st
      | none => fn

/-- Embeds `Path::extension` for a string path. -/
def path_extension (s : String) : Option String :=
  (extensionOfFileName (fileNameCs s.toList)).map (fun l => String.mk l)

/-- Embeds `Path::with_extension` for a string path: replace the final
component's extension (append `.ext` to its stem; bare stem when `ext` is
empty). -/
def path_with_extension (s ext : String) : String :=
  let fn := fileNameCs s.toList
  let new_fn :=
    if ext.toList = [] then stemOfFileName fn
    else stemOfFileName fn ++ '.' :: ext.toList
  String.mk (replaceFileNameCs s.toList new_fn)

/-- Embeds `SegmentedDownload::part_path` (segment.rs lines 456–463):
`with_extension(format!("{}.part", ext))` when the save path has an
extension, `with_extension("part")` otherwise — i.e. `.part` appended
*after* any existing extension. -/
def part_path (save_path : String) : String :=
  match path_extension save_path with
  | some e => path_with_extension save_path (e ++ ".part")
  | none => path_with_extension save_path "part"

/-! ## Download engine (`src/gosh-dl/src/engine.rs`) -/

/-- Modelled from the spec: `DownloadKind` (§3; `types.rs` is not in the
provided sources). -/
inductive DownloadKind where
  | http
  | torrent
  | magnet
  deriving DecidableEq, Repr

/-- Modelled from the spec: `DownloadState` (§3; `types.rs` is not in the
provided sources).  `Error` carries `{kind, message, retryable}`. -/
inductive DownloadState where
  | queued
  | connecting
  | downloading
  | seeding
  | paused
  | completed
  | error (kind message : String) (retryable : Bool)
  deriving DecidableEq, Repr

/-- An abbreviated stand-in for Rust's `format!("{:?}", state)` used to
fill `InvalidState::current_state`; the claims never inspect the exact
text, only which error variant is returned. -/
def DownloadState.debugName : DownloadState → String
  | DownloadState.queued => "Queued"
  | DownloadState.connecting => "Connecting"
  | DownloadState.downloading => "Downloading"
  | DownloadState.seeding => "Seeding"
  | DownloadState.paused => "Paused"
  | DownloadState.completed => "Completed"
  | DownloadState.error _ _ _ => "Error"

/-- Modelled from the spec: `DownloadProgress` (§3). -/
structure DownloadProgress where
  total_size : Option Nat
  completed_size : Nat
  download_speed : Nat
  upload_speed : Nat
  connections : Nat
  seeders : Nat
  peers : Nat
  eta_seconds : Option Nat
  deriving DecidableEq, Repr

/-- Modelled from the spec: `DownloadMetadata` (§3). -/
structure DownloadMetadata where
  name : String
  url : Option String
  magnet_uri : Option String
  info_hash : Option String
  save_dir : String
  filename : Option String
  user_agent : Option String
  referer : Option String
  headers : List (String × String)
  deriving DecidableEq, Repr

/-- Modelled from the spec: `DownloadStatus` (§3), with `DownloadId` as a
`Nat` and timestamps as their rendered strings. -/
structure DownloadStatus where
  id : Nat
  kind : DownloadKind
  state : DownloadState
  progress : DownloadProgress
  metadata : DownloadMetadata
  created_at : String
  completed_at : Option String
  deriving DecidableEq, Repr

/-- The engine's download map, keyed by id (the `ManagedDownload` task
handle is not representable and is omitted; no embedded decision reads
it). -/
abbrev Downloads := List (Nat × DownloadStatus)

/-- The map rewrite inside `DownloadEngine::update_state` (engine.rs
lines 568–584): replace the state of the entry with the given id. -/
def setState (downloads : Downloads) (id : Nat) (new_state : DownloadState) :
    Downloads :=
  downloads.map (fun kv =>
    if kv.1 = id then (kv.1, { kv.2 with state := new_state }) else kv)

/-- Embeds `DownloadEngine::update_state` (engine.rs lines 568–584): `NotFound`
for an unknown id, otherwise update the state in place (the entry is
retained). -/
def update_state (downloads : Downloads) (id : Nat)
    (new_state : DownloadState) : Except EngineError Downloads :=
  match lookupKey id downloads with
  | none => Except.error (EngineError.notFound (toString id))
  | some _ => Except.ok (setState downloads id new_state)

/-- The decision prefix of `DownloadEngine::resume` (engine.rs lines
357–394): `NotFound` for an unknown id; `InvalidState` unless the state
is exactly `Paused`; `Internal` when the URL is missing; otherwise the
URL with which `start_download` is re-invoked. -/
def resume (downloads : Downloads) (id : Nat) : Except EngineError String :=
  match lookupKey id downloads with
  | none => Except.error (EngineError.notFound (toString id))
  | some download =>
      if download.state ≠ DownloadState.paused then
        Except.error (EngineError.invalidState "resume"
          download.state.debugName)
      else
        match download.metadata.url with
        | none => Except.error (EngineError.internal
            "HTTP download missing URL")
        | some url => Except.ok url

/-- Embeds `DownloadEngine::cancel` (engine.rs lines 397–439): remove the entry;
when `delete_files`, delete `save_dir.join(filename)` and
`path.with_extension("part")` (each if it exists).  Returns the new map
and the list of paths the engine deletes. -/
def cancel (downloads : Downloads) (id : Nat) (delete_files : Bool) :
    Except EngineError (Downloads × List String) :=
  match lookupKey id downloads with
  | none => Except.error (EngineError.notFound (toString id))
  | some download =>
      let path := download.metadata.save_dir ++ "/" ++
        (download.metadata.filename.getD "download")
      let deleted :=
        if delete_files then [path, path_with_extension path "part"] else []
      (Except.ok (downloads.filter (fun kv => kv.1 ≠ id), deleted))

/-- The files remaining from `existing` after `cancel` deleted its paths:
cancellation removes each deleted path that existed. -/
def filesAfterCancel (existing deleted : List String) : List String :=
  existing.filter (fun p => ¬ deleted.contains p)

/-! ## SQLite storage (`src/gosh-dl/src/storage/sqlite.rs`) -/

/-- One row of the `downloads` table (schema in sqlite.rs lines 76–109). -/
structure DownloadRow where
  kind : String
  state : String
  state_error_kind : Option String
  state_error_message : Option String
  state_error_retryable : Option Bool
  total_size : Option Nat
  completed_size : Nat
  download_speed : Nat
  upload_speed : Nat
  connections : Nat
  seeders : Nat
  peers : Nat
  name : String
  url : Option String
  magnet_uri : Option String
  info_hash : Option String
  save_dir : String
  filename : Option String
  user_agent : Option String
  referer : Option String
  headers_json : String
  created_at : String
  completed_at : Option String
  deriving DecidableEq, Repr

/-- The state serialisation of `save_download` (sqlite.rs lines
143–155). -/
def serializeState (s : DownloadState) :
    String × Option String × Option String × Option Bool :=
  match s with
  | DownloadState.queued => ("queued", none, none, none)
  | DownloadState.connecting => ("connecting", none, none, none)
  | DownloadState.downloading => ("downloading", none, none, none)
  | DownloadState.seeding => ("seeding", none, none, none)
  | DownloadState.paused => ("paused", none, none, none)
  | DownloadState.completed => ("completed", none, none, none)
  | DownloadState.error kind message retryable =>
      ("error", some kind, some message, some retryable)

/-- The kind serialisation of `save_download` (sqlite.rs lines
158–162). -/
def serializeKind : DownloadKind → String
  | DownloadKind.http => "http"
  | DownloadKind.torrent => "torrent"
  | DownloadKind.magnet => "magnet"

/-- The headers-to-JSON serialisation of `save_download` (sqlite.rs lines
165–166); an injective rendering standing in for `serde_json`. -/
def headersToJson (headers : List (String × String)) : String :=
  "[" ++ String.intercalate ","
    (headers.map (fun kv => "[\"" ++ kv.1 ++ "\",\"" ++ kv.2 ++ "\"]")) ++ "]"

/-- The column values `save_download` binds for a status (sqlite.rs lines
196–221). -/
def toRow (s : DownloadStatus) : DownloadRow :=
  let st := serializeState s.state
  { kind := serializeKind s.kind
    state := st.1
    state_error_kind := st.2.1
    state_error_message := st.2.2.1
    state_error_retryable := st.2.2.2
    total_size := s.progress.total_size
    completed_size := s.progress.completed_size
    download_speed := s.progress.download_speed
    upload_speed := s.progress.upload_speed
    connections := s.progress.connections
    seeders := s.progress.seeders
    peers := s.progress.peers
    name := s.metadata.name
    url := s.metadata.url
    magnet_uri := s.metadata.magnet_uri
    info_hash := s.metadata.info_hash
    save_dir := s.metadata.save_dir
    filename := s.metadata.filename
    user_agent := s.metadata.user_agent
    referer := s.metadata.referer
    headers_json := headersToJson s.metadata.headers
    created_at := s.created_at
    completed_at := s.completed_at }

/-- The `ON CONFLICT(id) DO UPDATE SET` clause of `save_download`
(sqlite.rs lines 181–194): on an existing row, exactly these columns take
the excluded (new) values; every other column keeps the old row's
value. -/
def applyConflictUpdate (old new : DownloadRow) : DownloadRow :=
  { old with
    state := new.state
    state_error_kind := new.state_error_kind
    state_error_message := new.state_error_message
    state_error_retryable := new.state_error_retryable
    total_size := new.total_size
    completed_size := new.completed_size
    download_speed := new.download_speed
    upload_speed := new.upload_speed
    connections := new.connections
    seeders := new.seeders
    peers := new.peers
    filename := new.filename
    completed_at := new.completed_at }

/-- Embeds `SqliteStorage::save_download` (sqlite.rs lines 135–228) over a table
keyed by download id: plain insert for a new id, conflict update for an
existing one. -/
def save_download (table : List (Nat × DownloadRow)) (s : DownloadStatus) :
    List (Nat × DownloadRow) :=
  match lookupKey s.id table with
  | none => (s.id, toRow s) :: table
  | some old =>
      table.map (fun kv =>
        if kv.1 = s.id then (kv.1, applyConflictUpdate old (toRow s)) else kv)

/-! ## Concrete fixtures

Small concrete values used by the witness and counterexample theorems. -/

/-- A concrete HTTP download status whose save path is `dl/file.zip`. -/
def demoHttpStatus : DownloadStatus :=
  { id := 1
    kind := DownloadKind.http
    state := DownloadState.completed
    progress :=
      { total_size := some 1000, completed_size := 1000, download_speed := 0
        upload_speed := 0, connections := 0, seeders := 0, peers := 0
        eta_seconds := none }
    metadata :=
      { name := "file.zip", url := some "https://example.com/file.zip"
        magnet_uri := none, info_hash := none, save_dir := "dl"
        filename := some "file.zip", user_agent := none, referer := none
        headers := [] }
    created_at := "2026-01-01T00:00:00Z"
    completed_at := none }

/-- A concrete download status in a retryable `Error` state. -/
def demoFailedStatus : DownloadStatus :=
  { demoHttpStatus with
    state := DownloadState.error "Network" "connection reset" true }

/-- A concrete status used as the first `save_download` call of the C10
witness. -/
def demoStatusA : DownloadStatus :=
  { id := 5
    kind := DownloadKind.http
    state := DownloadState.downloading
    progress :=
      { total_size := some 1000, completed_size := 500, download_speed := 100
        upload_speed := 0, connections := 4, seeders := 0, peers := 0
        eta_seconds := some 5 }
    metadata :=
      { name := "test.zip", url := some "https://example.com/test.zip"
        magnet_uri := none, info_hash := none, save_dir := "/tmp/downloads"
        filename := some "test.zip", user_agent := some "gosh-dl/0.1.0"
        referer := none, headers := [("X-Custom", "value")] }
    created_at := "2026-01-01T00:00:00Z"
    completed_at := none }

/-- A second status with the same id but different metadata, state and
progress, used as the second `save_download` call of the C10 witness. -/
def demoStatusB : DownloadStatus :=
  { id := 5
    kind := DownloadKind.torrent
    state := DownloadState.completed
    progress :=
      { total_size := some 1000, completed_size := 1000, download_speed := 0
        upload_speed := 0, connections := 0, seeders := 0, peers := 0
        eta_seconds := none }
    metadata :=
      { name := "renamed.zip", url := some "https://other.example/x.zip"
        magnet_uri := some "magnet:x", info_hash := some "abcd"
        save_dir := "/elsewhere", filename := some "final.zip"
        user_agent := none, referer := some "https://ref.example"
        headers := [] }
    created_at := "2026-02-02T00:00:00Z"
    completed_at := some "2026-02-03T00:00:00Z" }

/-- An arbitrary executable hash function standing in for SHA-1 in the
concrete witnesses (the theorems hold for every hash function). -/
def demoSha1 : List Nat → Sha1Hash :=
  fun d => [d.length % 7]

/-- A three-byte, single-file torrent with a well-formed name. -/
def demoTorrent : Metainfo :=
  { info :=
      { name := [Component.normal "file.bin"]
        files := [{ path := [Component.normal "file.bin"], length := 3 }]
        is_single_file := true
        piece_length := 3
        pieces := [[1]]
        total_size := 3 } }

/-- A multi-file torrent whose second file's relative path climbs out of
the save directory (`../../etc/passwd`). -/
def demoEvilTorrent : Metainfo :=
  { info :=
      { name := [Component.normal "evil"]
        files :=
          [{ path := [Component.normal "ok.txt"], length := 2 },
           { path := [Component.parentDir, Component.parentDir,
              Component.normal "etc", Component.normal "passwd"],
             length := 4 }]
        is_single_file := false
        piece_length := 6
        pieces := [[9]]
        total_size := 6 } }

/-- The pending piece of `demoTorrent`'s piece 0 with its single block
received (payload `[9, 9, 9]`). -/
def demoPending : PendingPiece :=
  ((PendingPiece.new 0 3).add_block 0 [9, 9, 9]).2

/-- A `PieceManager` over `demoTorrent` whose piece 0 is pending and
complete. -/
def demoPM : PieceManager :=
  { PieceManager.new demoTorrent [Component.normal "dl"] with
    pending := [(0, demoPending)] }

/-- A `PieceManager` with three pieces, none held, none pending, with
availabilities `[2, 1, 1]` (pieces 1 and 2 are equally rarest). -/
def demoPM7 : PieceManager :=
  { PieceManager.new
      { info :=
          { name := [Component.normal "t"]
            files := [{ path := [Component.normal "t"], length := 12 }]
            is_single_file := true
            piece_length := 4
            pieces := [[1], [2], [3]]
            total_size := 12 } }
      [Component.normal "dl"] with
    piece_availability := [2, 1, 1] }

/-! ## Helper lemmas -/

/-- Looking up `id` after `setState` yields the old entry with only its
state replaced. -/
theorem lookup_setState (d : Downloads) (id : Nat) (ns : DownloadState)
    (st : DownloadStatus) (h : lookupKey id d = some st) :
    lookupKey id (setState d id ns) = some { st with state := ns } := by
  induction d with
  | nil => simp [lookupKey] at h
  | cons kv rest ih =>
      by_cases hk : kv.1 = id
      · simp only [lookupKey] at h
        rw [if_pos hk] at h
        injection h with h2
        simp [setState, lookupKey, hk, h2]
      · simp only [lookupKey] at h
        rw [if_neg hk] at h
        simpa [setState, lookupKey, hk] using ih h

/-- Looking up `id` after replacing the value of every `id`-keyed entry by
the constant `c` yields `c`, provided an entry for `id` exists. -/
theorem lookup_map_replace (l : List (Nat × DownloadRow)) (id : Nat)
    (c : DownloadRow) (old : DownloadRow) (h : lookupKey id l = some old) :
    lookupKey id
      (l.map (fun kv => if kv.1 = id then (kv.1, c) else kv)) = some c := by
  induction l with
  | nil => simp [lookupKey] at h
  | cons kv rest ih =>
      by_cases hk : kv.1 = id
      · simp [lookupKey, hk]
      · simp only [lookupKey] at h
        rw [if_neg hk] at h
        simpa [lookupKey, hk] using ih h

/-! ## Claims -/

/-- **C4** — the claim says a `200 OK` response for a segment whose
effective start offset is non-zero is treated as a resume-invalidation
failure, and only `206` (or `200` at offset 0) is accepted.  The code's
check (`segment.rs` lines 240–247) accepts *any* 2xx status without ever
consulting the offset: `segmentStatusCheck 200` succeeds even though the
spec's rule (`specStatusAccepted`) rejects a 200 at offset 6553600.  The
non-2xx branch does raise `HttpStatus(code)`, as the 404 instance
shows. -/
theorem C4_segment_status_check_divergence :
    segmentStatusCheck 200 = Except.ok () ∧
    specStatusAccepted 200 6553600 = false ∧
    segmentStatusCheck 404 =
      Except.error (EngineError.network (NetworkErrorKind.httpStatus 404)
        "Segment HTTP error") := by
  decide

/-- **C5** — the claim says failing segments are retried with exponential
backoff and exhausted retries escalate to a download-level `Error`.  The
join phase of `SegmentedDownload::start` (`segment.rs` lines 352–397)
never inspects the segment tasks' results: with a single segment that
failed with a network error and nothing downloaded, `start` still returns
`Ok(())` (and skips `finalize`), so the error is silently dropped rather
than retried or escalated. -/
theorem C5_segment_errors_silently_dropped :
    startJoinPhase
      [Except.error (EngineError.network NetworkErrorKind.other
        "Segment 0 request failed")] 0 104857600 =
      (false, Except.ok ()) := by
  decide

/-- **C9** — the claim says `cancel(id, delete_files = true)` removes the
`.part` file the segmented downloader created (save path with `.part`
appended after the existing extension).  For save path `dl/file.zip` the
downloader's part file is `dl/file.zip.part` (`part_path`), but
`DownloadEngine::cancel` deletes `path.with_extension("part")`, i.e.
`dl/file.part`, so the real part file survives the cancellation. -/
theorem C9_cancel_misses_part_file :
    part_path "dl/file.zip" = "dl/file.zip.part" ∧
    cancel [(1, demoHttpStatus)] 1 true =
      Except.ok ([], ["dl/file.zip", "dl/file.part"]) ∧
    filesAfterCancel ["dl/file.zip.part"] ["dl/file.zip", "dl/file.part"] =
      ["dl/file.zip.part"] := by
  decide

/-- **C8 (counterexample)** — the claim says a download in state
`Error{retryable = true}` is accepted by `resume`.  On a concrete map
holding exactly such a download, `resume` returns an `InvalidState`
error instead. -/
theorem C8_resume_error_state_counterexample :
    resume [(1, demoFailedStatus)] 1 =
      Except.error (EngineError.invalidState "resume" "Error") := by
  decide

/-- **C8 (amended)** — a failed download does remain in the downloads
list (the error transition only rewrites its state in place), but
`resume` is *not* accepted for it: `DownloadEngine::resume` (`engine.rs`
lines 357–394) returns `InvalidState` for every state other than
`Paused`, in particular for `Error{..}` regardless of `retryable`. -/
theorem C8_error_downloads_not_resumable :
    (∀ (d : Downloads) (id : Nat) (st : DownloadStatus) (k msg : String)
      (r : Bool), lookupKey id d = some st →
      st.state = DownloadState.error k msg r →
      resume d id =
        Except.error (EngineError.invalidState "resume" "Error")) ∧
    (∀ (d : Downloads) (id : Nat) (st : DownloadStatus)
      (ns : DownloadState), lookupKey id d = some st →
      lookupKey id (setState d id ns) = some { st with state := ns }) := by
  constructor
  · intro d id st k msg r h hs
    unfold resume
    rw [h]
    simp [hs, DownloadState.debugName]
  · intro d id st ns h
    exact lookup_setState d id ns st h

/-- Witness for C8 (amended) at a concrete map: the failed download's
entry survives a state rewrite, and `resume` rejects it with
`InvalidState`. -/
theorem C8_error_downloads_not_resumable_witness :
    resume [(1, demoFailedStatus)] 1 =
      Except.error (EngineError.invalidState "resume" "Error") ∧
    lookupKey 1 (setState [(1, demoFailedStatus)] 1 DownloadState.paused) =
      some { demoFailedStatus with state := DownloadState.paused } :=
  ⟨C8_error_downloads_not_resumable.1 [(1, demoFailedStatus)] 1
      demoFailedStatus "Network" "connection reset" true rfl rfl,
    C8_error_downloads_not_resumable.2 [(1, demoFailedStatus)] 1
      demoFailedStatus DownloadState.paused rfl⟩

/-- **C10** — `save_download` on an id that already has a row updates
exactly the state, progress, `filename` and `completed_at` columns; the
stored `name`, `url`, `magnet_uri`, `info_hash`, `save_dir`,
`user_agent`, `referer`, `headers_json`, `kind` and `created_at` keep the
values of the first save (`sqlite.rs` lines 181–194, the
`ON CONFLICT(id) DO UPDATE SET` column list). -/
theorem C10_save_download_upsert_frame
    (table : List (Nat × DownloadRow)) (old : DownloadRow)
    (s : DownloadStatus) (h : lookupKey s.id table = some old) :
    ∃ row, lookupKey s.id (save_download table s) = some row ∧
      row.name = old.name ∧ row.url = old.url ∧
      row.magnet_uri = old.magnet_uri ∧ row.info_hash = old.info_hash ∧
      row.save_dir = old.save_dir ∧ row.user_agent = old.user_agent ∧
      row.referer = old.referer ∧ row.headers_json = old.headers_json ∧
      row.kind = old.kind ∧ row.created_at = old.created_at ∧
      row.state = (toRow s).state ∧
      row.state_error_kind = (toRow s).state_error_kind ∧
      row.state_error_message = (toRow s).state_error_message ∧
      row.state_error_retryable = (toRow s).state_error_retryable ∧
      row.total_size = s.progress.total_size ∧
      row.completed_size = s.progress.completed_size ∧
      row.download_speed = s.progress.download_speed ∧
      row.upload_speed = s.progress.upload_speed ∧
      row.connections = s.progress.connections ∧
      row.seeders = s.progress.seeders ∧ row.peers = s.progress.peers ∧
      row.filename = s.metadata.filename ∧
      row.completed_at = s.completed_at := by
  refine ⟨applyConflictUpdate old (toRow s), ?_, rfl, rfl, rfl, rfl, rfl,
    rfl, rfl, rfl, rfl, rfl, rfl, rfl, rfl, rfl, rfl, rfl, rfl, rfl, rfl,
    rfl, rfl, rfl, rfl⟩
  unfold save_download
  rw [h]
  exact lookup_map_replace table s.id (applyConflictUpdate old (toRow s))
    old h

/-- Witness for C10: saving `demoStatusB` over the row created for
`demoStatusA` (same id 5) keeps `demoStatusA`'s metadata columns while
taking `demoStatusB`'s state. -/
theorem C10_save_download_upsert_frame_witness :
    ∃ row,
      lookupKey 5 (save_download [(5, toRow demoStatusA)] demoStatusB) =
        some row ∧
      row.name = (toRow demoStatusA).name ∧
      row.url = (toRow demoStatusA).url ∧
      row.created_at = (toRow demoStatusA).created_at ∧
      row.state = (toRow demoStatusB).state := by
  obtain ⟨row, hrow, h1, h2, _, _, _, _, _, _, _, h10, h11, _⟩ :=
    C10_save_download_upsert_frame [(5, toRow demoStatusA)]
      (toRow demoStatusA) demoStatusB rfl
  exact ⟨row, hrow, h1, h2, h10, h11⟩

/-- **C6 (counterexample)** — the claim says `add_block` rejects a
duplicate block (target slot already filled), returning `false` and
leaving the piece unchanged.  On a one-block piece whose slot is already
filled with `[7, 7, …]`, a second well-formed block `[8, 8, …]` is
*accepted*: `add_block` returns `true`, overwrites the stored block, and
leaves `blocks_received` at 1. -/
theorem C6_add_block_duplicate_counterexample :
    let p1 := ((PendingPiece.new 0 100).add_block 0 (List.replicate 100 7)).2
    (p1.blocks.getD 0 none).isSome = true ∧
    (p1.add_block 0 (List.replicate 100 8)).1 = true ∧
    (p1.add_block 0 (List.replicate 100 8)).2.blocks =
      [some (List.replicate 100 8)] ∧
    (p1.add_block 0 (List.replicate 100 8)).2.blocks_received = 1 := by
  decide

/-- **C6 (amended)** — `add_block` rejects (returning `false` with the
piece unchanged) any block whose slot index is out of range, whose offset
is not a multiple of the block size, or whose payload size differs from
the expected size (`min(block_size, piece_length − offset)` for the last
slot, `block_size` otherwise); a block passing those checks is accepted
even when its slot already holds data: `add_block` returns `true`,
overwrites the slot, and increments `blocks_received` only when the slot
was empty (`piece.rs` lines 82–127). -/
theorem C6_add_block_validation (p : PendingPiece) (offset : Nat)
    (data : List Nat) :
    ((p.blocks.length ≤ offset / p.block_size ∨
        offset % p.block_size ≠ 0 ∨
        data.length ≠ expectedBlockSize p offset) →
      p.add_block offset data = (false, p)) ∧
    (offset / p.block_size < p.blocks.length →
      offset % p.block_size = 0 →
      data.length = expectedBlockSize p offset →
      p.add_block offset data =
        (true,
          { p with
            blocks := p.blocks.set (offset / p.block_size) (some data)
            blocks_received :=
              if (p.blocks.getD (offset / p.block_size) none).isNone then
                p.blocks_received + 1
              else p.blocks_received
            requested_blocks :=
              p.requested_blocks.filter
                (fun kv => kv.1 ≠ offset / p.block_size) })) := by
  constructor
  · intro h
    simp only [PendingPiece.add_block]
    by_cases h1 : offset / p.block_size ≥ p.blocks.length
    · rw [if_pos h1]
    · rw [if_neg h1]
      by_cases h2 : ¬ (offset % p.block_size = 0)
      · rw [if_pos h2]
      · rw [if_neg h2]
        have h3 : data.length ≠ expectedBlockSize p offset := by
          rcases h with h | h | h
          · exact absurd h h1
          · exact absurd h h2
          · exact h
        rw [if_pos h3]
  · intro hlt hmod hsize
    simp only [PendingPiece.add_block]
    rw [if_neg (by omega : ¬ (offset / p.block_size ≥ p.blocks.length)),
      if_neg (not_not_intro hmod), if_neg (not_not_intro hsize)]

/-- Witness for C6 (amended): the first, well-formed block of a fresh
100-byte piece is accepted. -/
theorem C6_add_block_validation_witness :
    ((PendingPiece.new 0 100).add_block 0 (List.replicate 100 7)).1 =
      true := by
  rw [(C6_add_block_validation (PendingPiece.new 0 100) 0
    (List.replicate 100 7)).2 (by decide) (by decide) (by decide)]

/-- The segment count is always positive. -/
theorem calc_count_pos (N c m : Nat) : 0 < calculate_segment_count N c m := by
  unfold calculate_segment_count
  dsimp only
  split <;> omega

/-- The segment count never exceeds the total size (for a non-empty
file). -/
theorem calc_count_le (N c m : Nat) (hN : 1 ≤ N) :
    calculate_segment_count N c m ≤ N := by
  unfold calculate_segment_count
  dsimp only
  have hq : N / m ≤ N := Nat.div_le_self N m
  split <;> omega

/-- The code's segment count equals the spec's formula
`max(1, min(max_connections, max(1, total_size / min_segment_size)))`. -/
theorem calc_count_formula (N c m : Nat) (hN : 1 ≤ N) :
    calculate_segment_count N c m = max 1 (min c (max 1 (N / m))) := by
  unfold calculate_segment_count
  dsimp only
  rw [if_neg (by omega : ¬ N = 0)]
  omega

/-- Each segment spans at least one byte. -/
theorem segment_size_pos (N c m : Nat) (hN : 1 ≤ N) :
    1 ≤ N / calculate_segment_count N c m :=
  (Nat.one_le_div_iff (calc_count_pos N c m)).mpr (calc_count_le N c m hN)

/-- Closed form of the `i`-th segment produced by `init_segments`. -/
theorem init_segments_getD (N c m i : Nat)
    (h : i < calculate_segment_count N c m) :
    (init_segments N c m).getD i (Segment.new 0 0 0) =
      Segment.new i (i * (N / calculate_segment_count N c m))
        (if i = calculate_segment_count N c m - 1 then N - 1
         else (i + 1) * (N / calculate_segment_count N c m) - 1) := by
  simp [init_segments, List.getD_eq_getElem?_getD, List.getElem?_map,
    List.getElem?_range, h]

/-- **C3** — for `total_size ≥ 1`, `max_connections ≥ 1` and
`min_segment_size ≥ 1`: the segment count equals
`max(1, min(max_connections, max(1, total_size / min_segment_size)))`,
and `init_segments` splits `[0, total_size)` contiguously without
overlap: segment 0 starts at 0, each segment starts one past the
previous segment's end, every segment except the last spans
`total_size / num` bytes, and the last segment ends at `total_size − 1`,
absorbing the remainder; the 100 MiB / 16 connections / 1 MiB example
yields exactly the sixteen ranges of the claim. -/
theorem C3_init_segments_partition (N c m : Nat) (hN : 1 ≤ N) (hc : 1 ≤ c) (hm : 1 ≤ m) :
    calculate_segment_count N c m = max 1 (min c (max 1 (N / m))) ∧
    (init_segments N c m).length = calculate_segment_count N c m ∧
    ((init_segments N c m).getD 0 (Segment.new 0 0 0)).start = 0 ∧
    (∀ i, i + 1 < calculate_segment_count N c m →
      ((init_segments N c m).getD (i + 1) (Segment.new 0 0 0)).start =
        ((init_segments N c m).getD i (Segment.new 0 0 0)).end_ + 1) ∧
    (∀ i, i + 1 < calculate_segment_count N c m →
      ((init_segments N c m).getD i (Segment.new 0 0 0)).end_ + 1 -
        ((init_segments N c m).getD i (Segment.new 0 0 0)).start =
        N / calculate_segment_count N c m) ∧
    (∀ i, i < calculate_segment_count N c m →
      ((init_segments N c m).getD i (Segment.new 0 0 0)).start ≤
        ((init_segments N c m).getD i (Segment.new 0 0 0)).end_) ∧
    ((init_segments N c m).getD (calculate_segment_count N c m - 1)
        (Segment.new 0 0 0)).end_ = N - 1 ∧
    (init_segments 104857600 16 1048576).map (fun s => (s.start, s.end_)) =
      [(0, 6553599), (6553600, 13107199), (13107200, 19660799),
       (19660800, 26214399), (26214400, 32767999), (32768000, 39321599),
       (39321600, 45875199), (45875200, 52428799), (52428800, 58982399),
       (58982400, 65535999), (65536000, 72089599), (72089600, 78643199),
       (78643200, 85196799), (85196800, 91750399), (91750400, 98303999),
       (98304000, 104857599)] := by
  have hpos := calc_count_pos N c m
  have hs := segment_size_pos N c m hN
  refine ⟨calc_count_formula N c m hN, ?_, ?_, ?_, ?_, ?_, ?_, by decide⟩
  · simp [init_segments]
  · rw [init_segments_getD N c m 0 hpos]
    simp [Segment.new]
  · intro i hi
    rw [init_segments_getD N c m (i + 1) hi,
      init_segments_getD N c m i (by omega)]
    simp only [Segment.new]
    rw [if_neg (by omega : ¬ i = calculate_segment_count N c m - 1)]
    have h1 : 0 < (i + 1) * (N / calculate_segment_count N c m) :=
      Nat.mul_pos (by omega) hs
    omega
  · intro i hi
    rw [init_segments_getD N c m i (by omega)]
    simp only [Segment.new]
    rw [if_neg (by omega : ¬ i = calculate_segment_count N c m - 1)]
    have h2 : (i + 1) * (N / calculate_segment_count N c m) =
        i * (N / calculate_segment_count N c m) +
          N / calculate_segment_count N c m := Nat.succ_mul _ _
    omega
  · intro i hi
    rw [init_segments_getD N c m i hi]
    simp only [Segment.new]
    by_cases hlast : i = calculate_segment_count N c m - 1
    · rw [if_pos hlast, hlast]
      have h2 : N / calculate_segment_count N c m *
          calculate_segment_count N c m ≤ N := Nat.div_mul_le_self N _
      have h3 : (calculate_segment_count N c m - 1) *
            (N / calculate_segment_count N c m) +
            N / calculate_segment_count N c m =
          calculate_segment_count N c m *
            (N / calculate_segment_count N c m) := by
        have h4 : calculate_segment_count N c m - 1 + 1 =
            calculate_segment_count N c m := by omega
        calc (calculate_segment_count N c m - 1) *
              (N / calculate_segment_count N c m) +
              N / calculate_segment_count N c m =
            (calculate_segment_count N c m - 1 + 1) *
              (N / calculate_segment_count N c m) :=
              (Nat.succ_mul _ _).symm
          _ = calculate_segment_count N c m *
              (N / calculate_segment_count N c m) := by rw [h4]
      have h5 : calculate_segment_count N c m *
            (N / calculate_segment_count N c m) =
          N / calculate_segment_count N c m *
            calculate_segment_count N c m := Nat.mul_comm _ _
      omega
    · rw [if_neg hlast]
      have h2 : (i + 1) * (N / calculate_segment_count N c m) =
          i * (N / calculate_segment_count N c m) +
            N / calculate_segment_count N c m := Nat.succ_mul _ _
      omega
  · rw [init_segments_getD N c m (calculate_segment_count N c m - 1)
      (by omega)]
    simp only [Segment.new]
    simp

/-- Witness for C3 at the claim's own concrete input. -/
theorem C3_init_segments_partition_witness :
    calculate_segment_count 104857600 16 1048576 =
      max 1 (min 16 (max 1 (104857600 / 1048576))) ∧
    (init_segments 104857600 16 1048576).length =
      calculate_segment_count 104857600 16 1048576 :=
  have h := C3_init_segments_partition 104857600 16 1048576 (by decide)
    (by decide) (by decide)
  ⟨h.1, h.2.1⟩

/-- Head of a stable insertion: the earlier of the incoming element and
the old head, preferring the old head only when strictly smaller. -/
theorem head?_insertByAvail (x : Nat × Nat) (l : List (Nat × Nat)) :
    (insertByAvail x l).head? =
      some (match l with
        | [] => x
        | y :: _ => if y.2 < x.2 then y else x) := by
  cases l with
  | nil => rfl
  | cons y ys =>
      by_cases h : y.2 < x.2 <;> simp [insertByAvail, h]

/-- The head of the stable sort is the earliest minimal element. -/
theorem head?_sortByAvail (l : List (Nat × Nat)) :
    (sortByAvail l).head? = firstMin l := by
  induction l with
  | nil => rfl
  | cons x xs ih =>
      simp only [sortByAvail]
      rw [head?_insertByAvail]
      simp only [firstMin]
      cases hsx : sortByAvail xs with
      | nil =>
          rw [hsx] at ih
          rw [← ih]
          rfl
      | cons y ys =>
          rw [hsx] at ih
          rw [← ih]
          by_cases hy : y.2 < x.2 <;> simp [hy]

/-- The first minimum exists exactly on non-empty lists. -/
theorem firstMin_eq_none (l : List (Nat × Nat)) :
    firstMin l = none ↔ l = [] := by
  cases l with
  | nil => simp [firstMin]
  | cons x xs =>
      simp only [firstMin]
      constructor
      · intro h
        exfalso
        cases hx : firstMin xs with
        | none =>
            simp only [hx] at h
            exact Option.noConfusion h
        | some m =>
            simp only [hx] at h
            by_cases hm : m.2 < x.2
            · rw [if_pos hm] at h
              exact Option.noConfusion h
            · rw [if_neg hm] at h
              exact Option.noConfusion h
      · intro h
        exact absurd h (List.cons_ne_nil x xs)

/-- The first minimum is an element of the list. -/
theorem firstMin_mem :
    ∀ (l : List (Nat × Nat)) (c : Nat × Nat), firstMin l = some c →
      c ∈ l := by
  intro l
  induction l with
  | nil => intro c h; simp [firstMin] at h
  | cons x xs ih =>
      intro c h
      cases hx : firstMin xs with
      | none =>
          simp only [firstMin, hx] at h
          injection h with h
          subst h
          exact List.mem_cons_self x xs
      | some m =>
          simp only [firstMin, hx] at h
          by_cases hm : m.2 < x.2
          · rw [if_pos hm] at h
            injection h with h
            subst h
            exact List.mem_cons_of_mem x (ih _ hx)
          · rw [if_neg hm] at h
            injection h with h
            subst h
            exact List.mem_cons_self x xs

/-- The first minimum has minimal second component. -/
theorem firstMin_min :
    ∀ (l : List (Nat × Nat)) (c : Nat × Nat), firstMin l = some c →
      ∀ y ∈ l, c.2 ≤ y.2 := by
  intro l
  induction l with
  | nil => intro c h; simp [firstMin] at h
  | cons x xs ih =>
      intro c h y hy
      cases hx : firstMin xs with
      | none =>
          simp only [firstMin, hx] at h
          injection h with h
          subst h
          have hxs : xs = [] := (firstMin_eq_none xs).mp hx
          subst hxs
          have hyx := List.mem_singleton.mp hy
          subst hyx
          exact Nat.le_refl _
      | some m =>
          simp only [firstMin, hx] at h
          by_cases hm : m.2 < x.2
          · rw [if_pos hm] at h
            injection h with h
            subst h
            rcases List.mem_cons.mp hy with hy | hy
            · subst hy
              exact Nat.le_of_lt hm
            · exact ih _ hx y hy
          · rw [if_neg hm] at h
            injection h with h
            subst h
            rcases List.mem_cons.mp hy with hy | hy
            · subst hy
              exact Nat.le_refl _
            · have hmy := ih _ hx y hy
              omega

/-- On a list with strictly increasing first components, the first
minimum has the least first component among elements of equal key. -/
theorem firstMin_first :
    ∀ (l : List (Nat × Nat)) (c : Nat × Nat),
      l.Pairwise (fun a b => a.1 < b.1) → firstMin l = some c →
      ∀ y ∈ l, y.2 = c.2 → c.1 ≤ y.1 := by
  intro l
  induction l with
  | nil => intro c _ h; simp [firstMin] at h
  | cons x xs ih =>
      intro c hp h y hy hyc
      obtain ⟨hxall, hptail⟩ := List.pairwise_cons.mp hp
      cases hx : firstMin xs with
      | none =>
          simp only [firstMin, hx] at h
          injection h with h
          subst h
          have hxs : xs = [] := (firstMin_eq_none xs).mp hx
          subst hxs
          have hyx := List.mem_singleton.mp hy
          subst hyx
          exact Nat.le_refl _
      | some m =>
          simp only [firstMin, hx] at h
          by_cases hm : m.2 < x.2
          · rw [if_pos hm] at h
            injection h with h
            subst h
            rcases List.mem_cons.mp hy with hy | hy
            · subst hy
              omega
            · exact ih _ hptail hx y hy hyc
          · rw [if_neg hm] at h
            injection h with h
            subst h
            rcases List.mem_cons.mp hy with hy | hy
            · subst hy
              exact Nat.le_refl _
            · exact Nat.le_of_lt (hxall y hy)

/-- Every member of the candidate list is a candidate piece paired with
its availability. -/
theorem mem_selectCandidates (pm : PieceManager) (peer_has : List Bool)
    (x : Nat × Nat) (hx : x ∈ pm.selectCandidates peer_has) :
    isCandidate pm peer_has x.1 ∧
      x.2 = pm.piece_availability.getD x.1 0 := by
  simp only [PieceManager.selectCandidates] at hx
  rw [List.mem_filterMap] at hx
  obtain ⟨i, hi, hfi⟩ := hx
  rw [List.mem_range] at hi
  by_cases h1 : pm.have_.getD i false = true ∨
      (lookupKey i pm.pending).isSome = true
  · rw [if_pos h1] at hfi
    exact Option.noConfusion hfi
  · rw [if_neg h1] at hfi
    by_cases h2 : ¬ peer_has.getD i false = true
    · rw [if_pos h2] at hfi
      exact Option.noConfusion hfi
    · rw [if_neg h2] at hfi
      injection hfi with hfi
      subst hfi
      push_neg at h1
      have hA : pm.have_.getD i false = false := by
        cases hbv : pm.have_.getD i false
        · rfl
        · exact absurd hbv h1.1
      have hB : lookupKey i pm.pending = none := by
        cases hbv : lookupKey i pm.pending
        · rfl
        · exact absurd (by rw [hbv]; rfl) h1.2
      have hC : peer_has.getD i false = true := not_not.mp h2
      exact ⟨⟨hi, hA, hB, hC⟩, rfl⟩

/-- Every candidate piece appears in the candidate list. -/
theorem selectCandidates_mem (pm : PieceManager) (peer_has : List Bool)
    (i : Nat) (hc : isCandidate pm peer_has i) :
    (i, pm.piece_availability.getD i 0) ∈ pm.selectCandidates peer_has := by
  obtain ⟨h1, h2, h3, h4⟩ := hc
  simp only [PieceManager.selectCandidates]
  rw [List.mem_filterMap]
  have hc1 : ¬ (pm.have_.getD i false = true ∨
      (lookupKey i pm.pending).isSome = true) := by
    intro hcon
    rcases hcon with hcon | hcon
    · rw [h2] at hcon
      exact Bool.noConfusion hcon
    · rw [h3] at hcon
      exact Bool.noConfusion hcon
  have hc2 : ¬ ¬ peer_has.getD i false = true := not_not_intro h4
  refine ⟨i, List.mem_range.mpr h1, ?_⟩
  rw [if_neg hc1, if_neg hc2]

/-- The candidate list is enumerated in strictly increasing index
order. -/
theorem selectCandidates_pairwise (pm : PieceManager)
    (peer_has : List Bool) :
    (pm.selectCandidates peer_has).Pairwise (fun a b => a.1 < b.1) := by
  unfold PieceManager.selectCandidates
  rw [List.pairwise_filterMap]
  refine List.Pairwise.imp ?_ (List.pairwise_lt_range pm.num_pieces)
  intro a b hab x hx y hy
  have key : ∀ (j : Nat) (z : Nat × Nat),
      z ∈ (if pm.have_.getD j false ∨ (lookupKey j pm.pending).isSome
        then none
        else if ¬ peer_has.getD j false then none
        else some (j, pm.piece_availability.getD j 0)) → z.1 = j := by
    intro j z hz
    split at hz
    · exact absurd hz (by simp)
    · split at hz
      · exact absurd hz (by simp)
      · rw [Option.mem_def] at hz
        injection hz with h
        rw [← h]
  rw [key a x hx, key b y hy]
  exact hab

/-- **C7** — `select_piece` returns `some i` only for a piece the local
side lacks, that is not pending, and that the peer has, with minimal
availability among all such candidates and the lowest index among
equally rare ones (Rust's `sort_by_key` is stable, so the first element
of the sorted candidate list is the earliest minimum); it returns `none`
exactly when no candidate exists. -/
theorem C7_select_piece_rarest_first (pm : PieceManager)
    (peer_has : List Bool) :
    (pm.select_piece peer_has = none →
      ∀ j, ¬ isCandidate pm peer_has j) ∧
    (∀ i, pm.select_piece peer_has = some i →
      isCandidate pm peer_has i ∧
      (∀ j, isCandidate pm peer_has j →
        pm.piece_availability.getD i 0 ≤ pm.piece_availability.getD j 0) ∧
      (∀ j, isCandidate pm peer_has j →
        pm.piece_availability.getD j 0 = pm.piece_availability.getD i 0 →
        i ≤ j)) := by
  have hhead := head?_sortByAvail (pm.selectCandidates peer_has)
  constructor
  · intro hnone j hj
    simp only [PieceManager.select_piece] at hnone
    cases hs : sortByAvail (pm.selectCandidates peer_has) with
    | nil =>
        rw [hs] at hhead
        simp only [List.head?] at hhead
        have hcand : pm.selectCandidates peer_has = [] :=
          (firstMin_eq_none _).mp hhead.symm
        have hmem := selectCandidates_mem pm peer_has j hj
        rw [hcand] at hmem
        simp at hmem
    | cons c cs =>
        rw [hs] at hnone
        simp at hnone
  · intro i hi
    simp only [PieceManager.select_piece] at hi
    cases hs : sortByAvail (pm.selectCandidates peer_has) with
    | nil =>
        rw [hs] at hi
        simp at hi
    | cons c cs =>
        rw [hs] at hi
        simp at hi
        rw [hs] at hhead
        simp only [List.head?] at hhead
        have hfm : firstMin (pm.selectCandidates peer_has) = some c :=
          hhead.symm
        have hcmem := firstMin_mem _ c hfm
        have hcprops := mem_selectCandidates pm peer_has c hcmem
        refine ⟨?_, ?_, ?_⟩
        · rw [← hi]
          exact hcprops.1
        · intro j hj
          have hjm := selectCandidates_mem pm peer_has j hj
          have hmin := firstMin_min _ c hfm _ hjm
          rw [← hi, ← hcprops.2]
          simpa using hmin
        · intro j hj heq
          have hjm := selectCandidates_mem pm peer_has j hj
          have hyc : (j, pm.piece_availability.getD j 0).2 = c.2 := by
            show pm.piece_availability.getD j 0 = c.2
            rw [heq, hcprops.2, hi]
          have hfirst := firstMin_first _ c
            (selectCandidates_pairwise pm peer_has) hfm _ hjm hyc
          simpa [← hi] using hfirst

/-- Witness for C7 on a concrete manager with availabilities `[2, 1, 1]`:
piece 1 is selected — a candidate, at least as rare as its peers, and the
lower index of the two equally rare pieces. -/
theorem C7_select_piece_rarest_first_witness :
    isCandidate demoPM7 [true, true, true] 1 ∧
    demoPM7.piece_availability.getD 1 0 ≤
      demoPM7.piece_availability.getD 2 0 ∧
    (1 : Nat) ≤ 2 :=
  have h := (C7_select_piece_rarest_first demoPM7 [true, true, true]).2 1
    (by decide)
  ⟨h.1, h.2.1 2 (by decide), h.2.2 2 (by decide) (by decide)⟩

/-- Setting a bit never clears another set bit. -/
theorem getD_set_true (l : List Bool) (i j : Nat)
    (h : l.getD j false = true) : (l.set i true).getD j false = true := by
  induction l generalizing i j with
  | nil => simpa using h
  | cons a l ih =>
      cases i with
      | zero =>
          cases j with
          | zero => rfl
          | succ j => simpa using h
      | succ i =>
          cases j with
          | zero => simpa using h
          | succ j => simpa using ih i j (by simpa using h)

/-- Characterisation of every successful `verify_and_save` run: the
pending piece was complete, the metainfo hash exists, and the run either
took the mismatch branch (pending removed, nothing else changed,
result `false`) or the match branch (bit set, counters bumped, result
`true`). -/
theorem verify_and_save_ok (sha1 : List Nat → Sha1Hash) (pm : PieceManager)
    (i : Nat) (r : Bool) (pm' : PieceManager)
    (hok : PieceManager.verify_and_save sha1 pm i = Except.ok (r, pm')) :
    ∃ piece data expected, lookupKey i pm.pending = some piece ∧
      piece.data = some data ∧
      pm.metainfo.pieceHash i = some expected ∧
      ((sha1 data ≠ expected ∧ r = false ∧
        pm' = { pm with pending := removePending i pm.pending }) ∨
       (sha1 data = expected ∧ r = true ∧
        pm' = { pm with
          have_ := pm.have_.set i true
          pending := removePending i pm.pending
          verified_count := pm.verified_count + 1
          verified_bytes := pm.verified_bytes + data.length })) := by
  cases hlk : lookupKey i pm.pending with
  | none =>
      simp only [PieceManager.verify_and_save, hlk] at hok
      exact Except.noConfusion hok
  | some piece =>
      cases hd : piece.data with
      | none =>
          simp only [PieceManager.verify_and_save, hlk, hd] at hok
          exact Except.noConfusion hok
      | some data =>
          cases hh : pm.metainfo.pieceHash i with
          | none =>
              simp only [PieceManager.verify_and_save, hlk, hd, hh] at hok
              exact Except.noConfusion hok
          | some expected =>
              refine ⟨piece, data, expected, rfl, hd, rfl, ?_⟩
              by_cases hne : sha1 data ≠ expected
              · left
                simp only [PieceManager.verify_and_save, hlk, hd, hh] at hok
                rw [if_pos hne] at hok
                injection hok with hok
                simp only [Prod.mk.injEq] at hok
                exact ⟨hne, hok.1.symm, hok.2.symm⟩
              · right
                simp only [PieceManager.verify_and_save, hlk, hd, hh] at hok
                rw [if_neg hne] at hok
                cases hw : (write_piece pm.metainfo pm.save_dir i).2 with
                | some e =>
                    rw [hw] at hok
                    exact Except.noConfusion hok
                | none =>
                    rw [hw] at hok
                    injection hok with hok
                    simp only [Prod.mk.injEq] at hok
                    exact ⟨not_not.mp hne, hok.1.symm, hok.2.symm⟩

/-- Evaluation of `verify_and_save` on a hash mismatch: `Ok(false)`,
pending entry removed, availability and have-bits untouched. -/
theorem verify_and_save_mismatch (sha1 : List Nat → Sha1Hash)
    (pm : PieceManager) (i : Nat) (piece : PendingPiece) (d : List Nat)
    (h : Sha1Hash) (h1 : lookupKey i pm.pending = some piece)
    (h2 : piece.data = some d) (h3 : pm.metainfo.pieceHash i = some h)
    (h4 : sha1 d ≠ h) :
    PieceManager.verify_and_save sha1 pm i =
      Except.ok (false, { pm with pending := removePending i pm.pending }) := by
  simp only [PieceManager.verify_and_save, h1, h2, h3]
  rw [if_pos h4]

/-- The `verify_existing` loop only ever sets have-bits. -/
theorem verifyExistingGo_have (sha1 : List Nat → Sha1Hash)
    (fs : RPath → Option (List Nat)) :
    ∀ (idxs : List Nat) (vc : Nat) (pm : PieceManager) (n : Nat)
      (pm' : PieceManager),
      verifyExistingGo sha1 fs idxs vc pm = Except.ok (n, pm') →
      ∀ j, pm.have_.getD j false = true → pm'.have_.getD j false = true := by
  intro idxs
  induction idxs with
  | nil =>
      intro vc pm n pm' h j hj
      simp only [verifyExistingGo] at h
      injection h with h
      simp only [Prod.mk.injEq] at h
      rw [← h.2]
      exact hj
  | cons i rest ih =>
      intro vc pm n pm' h j hj
      simp only [verifyExistingGo] at h
      cases hv : (verify_piece_on_disk sha1 fs pm.metainfo pm.save_dir i).2 with
      | error e =>
          rw [hv] at h
          exact Except.noConfusion h
      | ok b =>
          cases b with
          | false =>
              rw [hv] at h
              exact ih vc pm n pm' h j hj
          | true =>
              rw [hv] at h
              exact ih _ _ n pm' h j (getD_set_true pm.have_ i j hj)

/-- A bit found set after `set i true` was either already set or is bit
`i` itself. -/
theorem getD_set_true_cases (l : List Bool) (i j : Nat)
    (h : (l.set i true).getD j false = true) :
    l.getD j false = true ∨ j = i := by
  induction l generalizing i j with
  | nil => simp at h
  | cons a l ih =>
      cases i with
      | zero =>
          cases j with
          | zero => right; rfl
          | succ j => left; simpa using h
      | succ i =>
          cases j with
          | zero => left; simpa using h
          | succ j =>
              rcases ih i j (by simpa using h) with hc | hc
              · left; simpa using hc
              · right; omega

/-- Characterisation of a successful on-disk verification: the metainfo
hash for the piece exists, the verify loop assembled the piece's on-disk
bytes `d`, and `sha1 d` equals the stored hash. -/
theorem verify_piece_on_disk_true (sha1 : List Nat → Sha1Hash)
    (fs : RPath → Option (List Nat)) (m : Metainfo) (sd : RPath) (i : Nat)
    (h : (verify_piece_on_disk sha1 fs m sd i).2 = Except.ok true) :
    ∃ h0 d, m.pieceHash i = some h0 ∧
      (verifyPieceGo fs m sd (m.filesForPiece i)).2 =
        Except.ok (some d) ∧
      sha1 d = h0 := by
  cases hh : m.pieceHash i with
  | none =>
      simp only [verify_piece_on_disk, hh] at h
      injection h with h
      exact Bool.noConfusion h
  | some h0 =>
      cases hl : m.pieceLength i with
      | none =>
          simp only [verify_piece_on_disk, hh, hl] at h
          injection h with h
          exact Bool.noConfusion h
      | some L =>
          simp only [verify_piece_on_disk, hh, hl] at h
          cases hr : (verifyPieceGo fs m sd (m.filesForPiece i)).2 with
          | error e =>
              rw [hr] at h
              exact Except.noConfusion h
          | ok od =>
              cases od with
              | none =>
                  rw [hr] at h
                  injection h with h
                  exact Bool.noConfusion h
              | some d =>
                  rw [hr] at h
                  injection h with h
                  exact ⟨h0, d, rfl, rfl, of_decide_eq_true h⟩

/-- Every bit set during the `verify_existing` loop that was not already
set corresponds to a piece whose on-disk verification returned `true`
(the loop never changes `metainfo` or `save_dir`). -/
theorem verifyExistingGo_set_only_on_match (sha1 : List Nat → Sha1Hash)
    (fs : RPath → Option (List Nat)) :
    ∀ (idxs : List Nat) (vc : Nat) (pm : PieceManager) (n : Nat)
      (pm' : PieceManager),
      verifyExistingGo sha1 fs idxs vc pm = Except.ok (n, pm') →
      ∀ j, pm'.have_.getD j false = true →
        pm.have_.getD j false = true ∨
        (verify_piece_on_disk sha1 fs pm.metainfo pm.save_dir j).2 =
          Except.ok true := by
  intro idxs
  induction idxs with
  | nil =>
      intro vc pm n pm' h j hj
      simp only [verifyExistingGo] at h
      injection h with h
      simp only [Prod.mk.injEq] at h
      left
      rw [← h.2] at hj
      exact hj
  | cons i rest ih =>
      intro vc pm n pm' h j hj
      simp only [verifyExistingGo] at h
      cases hv : (verify_piece_on_disk sha1 fs pm.metainfo pm.save_dir i).2 with
      | error e =>
          rw [hv] at h
          exact Except.noConfusion h
      | ok b =>
          cases b with
          | false =>
              rw [hv] at h
              exact ih vc pm n pm' h j hj
          | true =>
              rw [hv] at h
              rcases ih _ _ n pm' h j hj with hc | hc
              · rcases getD_set_true_cases pm.have_ i j hc with hc2 | hc2
                · left
                  exact hc2
                · right
                  rw [hc2]
                  exact hv
              · right
                exact hc
/-- **C2** — the have-bit for piece `i` is set only after the SHA-1 of
the assembled (for `verify_and_save`) or on-disk (for `verify_existing`
via `verify_piece_on_disk`) piece data equals the metainfo hash for `i`;
no `PieceManager` operation ever clears a set have-bit
(`verify_and_save` and `verify_existing` only set bits, every other
operation leaves `have` untouched); and on hash mismatch
`verify_and_save` removes the piece from pending, leaves
`piece_availability` (and everything else) unchanged, and returns
`Ok(false)` rather than an error.  `sha1` is universally quantified, so
this holds for the real SHA-1 in particular. -/
theorem C2_have_bit_invariants (sha1 : List Nat → Sha1Hash) :
    (∀ (pm : PieceManager) (i : Nat) (r : Bool) (pm' : PieceManager),
      PieceManager.verify_and_save sha1 pm i = Except.ok (r, pm') →
      pm'.have_.getD i false = true → pm.have_.getD i false = false →
      r = true ∧ ∃ piece d h, lookupKey i pm.pending = some piece ∧
        piece.data = some d ∧ pm.metainfo.pieceHash i = some h ∧
        sha1 d = h) ∧
    (∀ (pm : PieceManager) (i : Nat) (r : Bool) (pm' : PieceManager)
      (j : Nat), PieceManager.verify_and_save sha1 pm i = Except.ok (r, pm') →
      pm.have_.getD j false = true → pm'.have_.getD j false = true) ∧
    (∀ (pm : PieceManager) (i : Nat) (piece : PendingPiece) (d : List Nat)
      (h : Sha1Hash), lookupKey i pm.pending = some piece →
      piece.data = some d → pm.metainfo.pieceHash i = some h →
      sha1 d ≠ h →
      PieceManager.verify_and_save sha1 pm i =
        Except.ok (false,
          { pm with pending := removePending i pm.pending })) ∧
    (∀ (fs : RPath → Option (List Nat)) (pm : PieceManager) (n : Nat)
      (pm' : PieceManager) (j : Nat),
      PieceManager.verify_existing sha1 fs pm = Except.ok (n, pm') →
      pm.have_.getD j false = true → pm'.have_.getD j false = true) ∧
    (∀ (fs : RPath → Option (List Nat)) (pm : PieceManager) (n : Nat)
      (pm' : PieceManager) (j : Nat),
      PieceManager.verify_existing sha1 fs pm = Except.ok (n, pm') →
      pm.have_.getD j false = false → pm'.have_.getD j false = true →
      ∃ h0 d, pm.metainfo.pieceHash j = some h0 ∧
        (verify_piece_on_disk sha1 fs pm.metainfo pm.save_dir j).2 =
          Except.ok true ∧
        (verifyPieceGo fs pm.metainfo pm.save_dir
          (pm.metainfo.filesForPiece j)).2 = Except.ok (some d) ∧
        sha1 d = h0) ∧
    (∀ (fs : RPath → Option (List Nat)) (m : Metainfo) (sd : RPath)
      (i : Nat), (verify_piece_on_disk sha1 fs m sd i).2 = Except.ok true →
      ∃ h0 d, m.pieceHash i = some h0 ∧
        (verifyPieceGo fs m sd (m.filesForPiece i)).2 =
          Except.ok (some d) ∧
        sha1 d = h0) ∧
    (∀ (pm : PieceManager) (i offset : Nat) (data : List Nat) (b : Bool)
      (pm' : PieceManager),
      PieceManager.add_block pm i offset data = Except.ok (b, pm') →
      pm'.have_ = pm.have_) ∧
    (∀ (pm : PieceManager) (i : Nat),
      (PieceManager.start_piece pm i).2.have_ = pm.have_) ∧
    (∀ (pm : PieceManager) (i : Nat),
      (PieceManager.cancel_piece pm i).have_ = pm.have_) ∧
    (∀ (pm : PieceManager) (ps : List Bool) (add : Bool),
      (PieceManager.update_availability pm ps add).have_ = pm.have_) ∧
    (∀ (pm : PieceManager) (p bi pid : Nat),
      (PieceManager.mark_block_requested pm p bi pid).have_ = pm.have_) := by
  refine ⟨?_, ?_, ?_, ?_, ?_, ?_, ?_, ?_, ?_, ?_, ?_⟩
  · intro pm i r pm' hok hset hunset
    obtain ⟨piece, d, h0, hlk, hd, hh, hc⟩ :=
      verify_and_save_ok sha1 pm i r pm' hok
    rcases hc with ⟨hne, hr, hpm'⟩ | ⟨heq, hr, hpm'⟩
    · subst hpm'
      rw [hunset] at hset
      exact Bool.noConfusion hset
    · exact ⟨hr, piece, d, h0, hlk, hd, hh, heq⟩
  · intro pm i r pm' j hok hj
    obtain ⟨piece, d, h0, hlk, hd, hh, hc⟩ :=
      verify_and_save_ok sha1 pm i r pm' hok
    rcases hc with ⟨hne, hr, hpm'⟩ | ⟨heq, hr, hpm'⟩
    · subst hpm'
      exact hj
    · subst hpm'
      exact getD_set_true pm.have_ i j hj
  · intro pm i piece d h h1 h2 h3 h4
    exact verify_and_save_mismatch sha1 pm i piece d h h1 h2 h3 h4
  · intro fs pm n pm' j h hj
    cases hgo : verifyExistingGo sha1 fs (List.range pm.num_pieces) 0 pm with
    | error e =>
        simp only [PieceManager.verify_existing, hgo] at h
        exact Except.noConfusion h
    | ok p =>
        obtain ⟨vc, pmx⟩ := p
        simp only [PieceManager.verify_existing, hgo] at h
        injection h with h
        simp only [Prod.mk.injEq] at h
        rw [← h.2]
        exact verifyExistingGo_have sha1 fs (List.range pm.num_pieces) 0 pm
          vc pmx hgo j hj
  · intro fs pm n pm' j h hunset hset
    cases hgo : verifyExistingGo sha1 fs (List.range pm.num_pieces) 0 pm with
    | error e =>
        simp only [PieceManager.verify_existing, hgo] at h
        exact Except.noConfusion h
    | ok p =>
        obtain ⟨vc, pmx⟩ := p
        simp only [PieceManager.verify_existing, hgo] at h
        injection h with h
        simp only [Prod.mk.injEq] at h
        have hx : pmx.have_.getD j false = true := by
          rw [← h.2] at hset
          exact hset
        rcases verifyExistingGo_set_only_on_match sha1 fs
          (List.range pm.num_pieces) 0 pm vc pmx hgo j hx with hc | hc
        · rw [hunset] at hc
          exact Bool.noConfusion hc
        · obtain ⟨h0, d, hh, hgo2, hsha⟩ :=
            verify_piece_on_disk_true sha1 fs pm.metainfo pm.save_dir j hc
          exact ⟨h0, d, hh, hc, hgo2, hsha⟩
  · intro fs m sd i h
    exact verify_piece_on_disk_true sha1 fs m sd i h
  · intro pm i offset data b pm' hok
    cases hlk : lookupKey i pm.pending with
    | none =>
        simp only [PieceManager.add_block, hlk] at hok
        exact Except.noConfusion hok
    | some piece =>
        simp only [PieceManager.add_block, hlk] at hok
        by_cases hr : ¬ (piece.add_block offset data).1
        · rw [if_pos hr] at hok
          exact Except.noConfusion hok
        · rw [if_neg hr] at hok
          injection hok with hok
          simp only [Prod.mk.injEq] at hok
          rw [← hok.2]
  · intro pm i
    unfold PieceManager.start_piece
    cases pm.metainfo.pieceLength i <;> rfl
  · intro pm i
    rfl
  · intro pm ps add
    rfl
  · intro pm p bi pid
    unfold PieceManager.mark_block_requested
    cases lookupKey p pm.pending <;> rfl

/-- Witness for C2: a concrete mismatch run (the demo hash of the
assembled piece `[9,9,9]` differs from the stored hash `[1]`) returns
`Ok(false)` and removes only the pending entry. -/
theorem C2_have_bit_invariants_witness :
    PieceManager.verify_and_save demoSha1 demoPM 0 =
      Except.ok (false,
        { demoPM with pending := removePending 0 demoPM.pending }) :=
  (C2_have_bit_invariants demoSha1).2.2.1 demoPM 0 demoPending [9, 9, 9] [1]
    (by decide) (by decide) (by decide) (by decide)

/-- A non-rejected component passes validation. -/
theorem validate_ok_of_not_rejected (c : Component)
    (h : c.isRejected = false) :
    validate_path_component c = Except.ok () := by
  cases c with
  | prefixC s => simp [Component.isRejected] at h
  | rootDir => simp [Component.isRejected] at h
  | curDir => rfl
  | parentDir => simp [Component.isRejected] at h
  | normal s => rfl

/-- Every validation error is a `Protocol{InvalidTorrent}` error. -/
theorem validate_error_invalid (c : Component) (e : EngineError)
    (h : validate_path_component c = Except.error e) :
    e.isInvalidTorrent = true := by
  cases c with
  | parentDir =>
      injection h with h
      rw [← h]
      rfl
  | rootDir =>
      injection h with h
      rw [← h]
      rfl
  | prefixC s =>
      injection h with h
      rw [← h]
      rfl
  | curDir => exact Except.noConfusion h
  | normal s => exact Except.noConfusion h

/-- A component list free of rejected components validates. -/
theorem validateComponents_ok (cs : RPath)
    (h : hasRejectedComponent cs = false) :
    validateComponents cs = Except.ok () := by
  induction cs with
  | nil => rfl
  | cons c rest ih =>
      simp only [hasRejectedComponent, List.any_cons,
        Bool.or_eq_false_iff] at h
      simp only [validateComponents,
        validate_ok_of_not_rejected c h.1]
      exact ih (by simpa [hasRejectedComponent] using h.2)

/-- A component list that validates has no rejected component. -/
theorem hasRejected_false_of_validate_ok (cs : RPath)
    (h : validateComponents cs = Except.ok ()) :
    hasRejectedComponent cs = false := by
  induction cs with
  | nil => rfl
  | cons c rest ih =>
      simp only [validateComponents] at h
      cases hv : validate_path_component c with
      | error e =>
          simp only [hv] at h
          exact Except.noConfusion h
      | ok u =>
          cases u
          simp only [hv] at h
          have hc : c.isRejected = false := by
            cases c with
            | parentDir => exact Except.noConfusion hv
            | rootDir => exact Except.noConfusion hv
            | prefixC s => exact Except.noConfusion hv
            | curDir => rfl
            | normal s => rfl
          simp [hasRejectedComponent, List.any_cons, hc,
            (by simpa [hasRejectedComponent] using ih h : rest.any Component.isRejected = false)]

/-- Every component-loop error is a `Protocol{InvalidTorrent}` error. -/
theorem validateComponents_error_invalid (cs : RPath) (e : EngineError)
    (h : validateComponents cs = Except.error e) :
    e.isInvalidTorrent = true := by
  induction cs with
  | nil => exact Except.noConfusion h
  | cons c rest ih =>
      simp only [validateComponents] at h
      cases hv : validate_path_component c with
      | error e2 =>
          simp only [hv] at h
          injection h with h
          rw [← h]
          exact validate_error_invalid c e2 hv
      | ok u =>
          cases u
          simp only [hv] at h
          exact ih h

/-- A component list with a rejected component fails validation with an
`InvalidTorrent` error. -/
theorem validateComponents_error_of_rejected (cs : RPath)
    (h : hasRejectedComponent cs = true) :
    ∃ e, validateComponents cs = Except.error e ∧
      e.isInvalidTorrent = true := by
  induction cs with
  | nil => simp [hasRejectedComponent] at h
  | cons c rest ih =>
      simp only [hasRejectedComponent, List.any_cons, Bool.or_eq_true] at h
      by_cases hc : c.isRejected = true
      · have hv : ∃ e2, validate_path_component c = Except.error e2 := by
          cases c with
          | parentDir => exact ⟨_, rfl⟩
          | rootDir => exact ⟨_, rfl⟩
          | prefixC s => exact ⟨_, rfl⟩
          | curDir => simp [Component.isRejected] at hc
          | normal s => simp [Component.isRejected] at hc
        obtain ⟨e2, he2⟩ := hv
        refine ⟨e2, ?_, validate_error_invalid c e2 he2⟩
        simp only [validateComponents, he2]
      · have hcf : c.isRejected = false := by
          cases hcv : c.isRejected
          · rfl
          · exact absurd hcv hc
        have hrest : hasRejectedComponent rest = true := by
          rcases h with h | h
          · exact absurd h hc
          · simpa [hasRejectedComponent] using h
        obtain ⟨e, he, hi⟩ := ih hrest
        refine ⟨e, ?_, hi⟩
        simp only [validateComponents, validate_ok_of_not_rejected c hcf]
        exact he

/-- Every successfully built path extends the save directory by fully
validated components. -/
theorem buildFilePath_ok (m : Metainfo) (sd : RPath) (f : FileInfo)
    (p : RPath) (h : buildFilePath m sd f = Except.ok p) :
    ∃ rest, p = sd ++ rest ∧ hasRejectedComponent rest = false := by
  unfold buildFilePath at h
  by_cases hs : m.info.is_single_file = true
  · rw [if_pos hs] at h
    cases hn : validateComponents m.info.name with
    | error e =>
        simp only [hn] at h
        exact Except.noConfusion h
    | ok u =>
        cases u
        simp only [hn] at h
        injection h with h
        exact ⟨m.info.name, h.symm, hasRejected_false_of_validate_ok _ hn⟩
  · rw [if_neg hs] at h
    cases hn : validateComponents m.info.name with
    | error e =>
        simp only [hn] at h
        exact Except.noConfusion h
    | ok u =>
        cases u
        simp only [hn] at h
        cases hp : validateComponents f.path with
        | error e =>
            simp only [hp] at h
            exact Except.noConfusion h
        | ok u2 =>
            cases u2
            simp only [hp] at h
            injection h with h
            refine ⟨m.info.name ++ f.path, ?_, ?_⟩
            · rw [← h, List.append_assoc]
            · simp [hasRejectedComponent, List.any_append,
                (by simpa [hasRejectedComponent] using
                  hasRejected_false_of_validate_ok _ hn :
                  m.info.name.any Component.isRejected = false),
                (by simpa [hasRejectedComponent] using
                  hasRejected_false_of_validate_ok _ hp :
                  f.path.any Component.isRejected = false)]

/-- Every path-construction error is `InvalidTorrent`. -/
theorem buildFilePath_error_invalid (m : Metainfo) (sd : RPath)
    (f : FileInfo) (e : EngineError)
    (h : buildFilePath m sd f = Except.error e) :
    e.isInvalidTorrent = true := by
  unfold buildFilePath at h
  by_cases hs : m.info.is_single_file = true
  · rw [if_pos hs] at h
    cases hn : validateComponents m.info.name with
    | error e2 =>
        simp only [hn] at h
        injection h with h
        rw [← h]
        exact validateComponents_error_invalid _ e2 hn
    | ok u =>
        cases u
        simp only [hn] at h
        exact Except.noConfusion h
  · rw [if_neg hs] at h
    cases hn : validateComponents m.info.name with
    | error e2 =>
        simp only [hn] at h
        injection h with h
        rw [← h]
        exact validateComponents_error_invalid _ e2 hn
    | ok u =>
        cases u
        simp only [hn] at h
        cases hp : validateComponents f.path with
        | error e2 =>
            simp only [hp] at h
            injection h with h
            rw [← h]
            exact validateComponents_error_invalid _ e2 hp
        | ok u2 =>
            cases u2
            simp only [hp] at h
            exact Except.noConfusion h

/-- A rejected component in the torrent name fails path construction. -/
theorem buildFilePath_error_of_bad_name (m : Metainfo) (sd : RPath)
    (f : FileInfo) (hname : hasRejectedComponent m.info.name = true) :
    ∃ e, buildFilePath m sd f = Except.error e ∧
      e.isInvalidTorrent = true := by
  obtain ⟨e, he, hi⟩ := validateComponents_error_of_rejected _ hname
  refine ⟨e, ?_, hi⟩
  unfold buildFilePath
  by_cases hs : m.info.is_single_file = true
  · rw [if_pos hs]
    simp only [he]
  · rw [if_neg hs]
    simp only [he]

/-- A rejected component in a file's relative path fails multi-file path
construction. -/
theorem buildFilePath_error_of_bad_path (m : Metainfo) (sd : RPath)
    (f : FileInfo) (hsf : m.info.is_single_file = false)
    (hname : hasRejectedComponent m.info.name = false)
    (hpath : hasRejectedComponent f.path = true) :
    ∃ e, buildFilePath m sd f = Except.error e ∧
      e.isInvalidTorrent = true := by
  obtain ⟨e, he, hi⟩ := validateComponents_error_of_rejected _ hpath
  refine ⟨e, ?_, hi⟩
  unfold buildFilePath
  rw [if_neg (by rw [hsf]; exact Bool.false_ne_true)]
  simp only [validateComponents_ok _ hname, he]

/-- Every file opened or written by the `write_piece` loop lies under the
save directory with validated components. -/
theorem writePieceGo_ops (m : Metainfo) (sd : RPath) :
    ∀ (l : List (FileInfo × Nat × Nat)) (op : FileOp),
      op ∈ (writePieceGo m sd l).1 → op.touchesFile = true →
      ∃ rest, op.path = sd ++ rest ∧ hasRejectedComponent rest = false := by
  intro l
  induction l with
  | nil =>
      intro op hop _
      simp [writePieceGo] at hop
  | cons t rest ih =>
      obtain ⟨f, off, len⟩ := t
      intro op hop htouch
      simp only [writePieceGo] at hop
      cases hb : buildFilePath m sd f with
      | error e =>
          simp only [hb] at hop
          simp at hop
      | ok p =>
          simp only [hb] at hop
          rw [List.mem_append] at hop
          rcases hop with hop | hop
          · obtain ⟨restp, hp, hgood⟩ := buildFilePath_ok m sd f p hb
            rcases (by simpa using hop :
                op = FileOp.createDirAll p.dropLast ∨
                op = FileOp.openWrite p ∨ op = FileOp.write p off len)
              with h | h | h
            · subst h
              simp [FileOp.touchesFile] at htouch
            · subst h
              exact ⟨restp, by simp [FileOp.path, hp], hgood⟩
            · subst h
              exact ⟨restp, by simp [FileOp.path, hp], hgood⟩
          · exact ih op hop htouch

/-- With a rejected component in the torrent name, the `write_piece` loop
fails with `InvalidTorrent` before any filesystem operation. -/
theorem writePieceGo_err_name (m : Metainfo) (sd : RPath)
    (l : List (FileInfo × Nat × Nat)) (hne : l ≠ [])
    (hname : hasRejectedComponent m.info.name = true) :
    ∃ e, writePieceGo m sd l = ([], some e) ∧ e.isInvalidTorrent = true := by
  cases l with
  | nil => exact absurd rfl hne
  | cons t rest =>
      obtain ⟨f, off, len⟩ := t
      obtain ⟨e, he, hi⟩ := buildFilePath_error_of_bad_name m sd f hname
      refine ⟨e, ?_, hi⟩
      simp only [writePieceGo, he]

/-- With a rejected component in a touched file's path (multi-file mode),
the `write_piece` loop fails with `InvalidTorrent`. -/
theorem writePieceGo_err_file (m : Metainfo) (sd : RPath)
    (hsf : m.info.is_single_file = false)
    (hname : hasRejectedComponent m.info.name = false) :
    ∀ (l : List (FileInfo × Nat × Nat)) (f : FileInfo) (off len : Nat),
      (f, off, len) ∈ l → hasRejectedComponent f.path = true →
      ∃ e, (writePieceGo m sd l).2 = some e ∧ e.isInvalidTorrent = true := by
  intro l
  induction l with
  | nil =>
      intro f off len hm _
      simp at hm
  | cons t rest ih =>
      obtain ⟨g, goff, glen⟩ := t
      intro f off len hm hbad
      rcases List.mem_cons.mp hm with hm | hm
      · simp only [Prod.mk.injEq] at hm
        obtain ⟨e, he, hi⟩ := buildFilePath_error_of_bad_path m sd g hsf
          hname (hm.1 ▸ hbad)
        refine ⟨e, ?_, hi⟩
        simp only [writePieceGo, he]
      · cases hb : buildFilePath m sd g with
        | error e =>
            refine ⟨e, ?_, buildFilePath_error_invalid m sd g e hb⟩
            simp only [writePieceGo, hb]
        | ok p =>
            obtain ⟨e, he, hi⟩ := ih f off len hm hbad
            refine ⟨e, ?_, hi⟩
            simp only [writePieceGo, hb]
            exact he

/-- Every file opened by the `verify_piece_on_disk` loop lies under the
save directory with validated components. -/
theorem verifyPieceGo_ops (fs : RPath → Option (List Nat)) (m : Metainfo)
    (sd : RPath) :
    ∀ (l : List (FileInfo × Nat × Nat)) (op : FileOp),
      op ∈ (verifyPieceGo fs m sd l).1 →
      ∃ rest, op.path = sd ++ rest ∧ hasRejectedComponent rest = false := by
  intro l
  induction l with
  | nil =>
      intro op hop
      simp [verifyPieceGo] at hop
  | cons t rest ih =>
      obtain ⟨f, off, len⟩ := t
      intro op hop
      simp only [verifyPieceGo] at hop
      cases hb : buildFilePath m sd f with
      | error e =>
          simp only [hb] at hop
          simp at hop
      | ok p =>
          simp only [hb] at hop
          obtain ⟨restp, hp, hgood⟩ := buildFilePath_ok m sd f p hb
          cases hfs : fs p with
          | none =>
              simp only [hfs] at hop
              have : op = FileOp.openRead p := by simpa using hop
              subst this
              exact ⟨restp, by simp [FileOp.path, hp], hgood⟩
          | some content =>
              simp only [hfs] at hop
              cases hre : readExactAt content off len with
              | none =>
                  simp only [hre] at hop
                  have : op = FileOp.openRead p := by simpa using hop
                  subst this
                  exact ⟨restp, by simp [FileOp.path, hp], hgood⟩
              | some bytes =>
                  simp only [hre] at hop
                  rcases (by simpa using hop :
                      op = FileOp.openRead p ∨
                      op ∈ (verifyPieceGo fs m sd rest).1) with h | h
                  · subst h
                    exact ⟨restp, by simp [FileOp.path, hp], hgood⟩
                  · exact ih op h

/-- With a rejected component in the torrent name, the verify loop fails
with `InvalidTorrent` before any filesystem operation. -/
theorem verifyPieceGo_err_name (fs : RPath → Option (List Nat))
    (m : Metainfo) (sd : RPath) (l : List (FileInfo × Nat × Nat))
    (hne : l ≠ []) (hname : hasRejectedComponent m.info.name = true) :
    ∃ e, verifyPieceGo fs m sd l = ([], Except.error e) ∧
      e.isInvalidTorrent = true := by
  cases l with
  | nil => exact absurd rfl hne
  | cons t rest =>
      obtain ⟨f, off, len⟩ := t
      obtain ⟨e, he, hi⟩ := buildFilePath_error_of_bad_name m sd f hname
      refine ⟨e, ?_, hi⟩
      simp only [verifyPieceGo, he]

/-- With a rejected component in a touched file's path (multi-file mode),
the verify loop fails with `InvalidTorrent`, or reports the piece absent
when an earlier file of the piece was already missing or short — in
either case it never opens the offending path. -/
theorem verifyPieceGo_bad_file (fs : RPath → Option (List Nat))
    (m : Metainfo) (sd : RPath) (hsf : m.info.is_single_file = false)
    (hname : hasRejectedComponent m.info.name = false) :
    ∀ (l : List (FileInfo × Nat × Nat)) (f : FileInfo) (off len : Nat),
      (f, off, len) ∈ l → hasRejectedComponent f.path = true →
      (∃ e, (verifyPieceGo fs m sd l).2 = Except.error e ∧
        e.isInvalidTorrent = true) ∨
      (verifyPieceGo fs m sd l).2 = Except.ok none := by
  intro l
  induction l with
  | nil =>
      intro f off len hm _
      simp at hm
  | cons t rest ih =>
      obtain ⟨g, goff, glen⟩ := t
      intro f off len hm hbad
      rcases List.mem_cons.mp hm with hm | hm
      · simp only [Prod.mk.injEq] at hm
        obtain ⟨e, he, hi⟩ := buildFilePath_error_of_bad_path m sd g hsf
          hname (hm.1 ▸ hbad)
        left
        refine ⟨e, ?_, hi⟩
        simp only [verifyPieceGo, he]
      · cases hb : buildFilePath m sd g with
        | error e =>
            left
            refine ⟨e, ?_, buildFilePath_error_invalid m sd g e hb⟩
            simp only [verifyPieceGo, hb]
        | ok p =>
            cases hfs : fs p with
            | none =>
                right
                simp only [verifyPieceGo, hb, hfs]
            | some content =>
                cases hre : readExactAt content goff glen with
                | none =>
                    right
                    simp only [verifyPieceGo, hb, hfs, hre]
                | some bytes =>
                    rcases ih f off len hm hbad with ⟨e, he, hi⟩ | hnone
                    · left
                      refine ⟨e, ?_, hi⟩
                      simp only [verifyPieceGo, hb, hfs, hre, he]
                    · right
                      simp only [verifyPieceGo, hb, hfs, hre, hnone]

/-- A piece with a stored hash also has a length. -/
theorem pieceLength_some_of_pieceHash (m : Metainfo) (i : Nat)
    (h0 : Sha1Hash) (hh : m.pieceHash i = some h0) :
    ∃ L, m.pieceLength i = some L := by
  unfold Metainfo.pieceHash at hh
  have hi : i < m.info.pieces.length := by
    by_contra hcon
    rw [List.get?_eq_none.mpr (Nat.le_of_not_lt hcon)] at hh
    exact Option.noConfusion hh
  exact ⟨min ((i + 1) * m.info.piece_length) m.info.total_size -
      i * m.info.piece_length,
    by unfold Metainfo.pieceLength; rw [if_pos hi]⟩

/-- **C1** — path-traversal safety of the piece engine: every file that
`write_piece` or `verify_piece_on_disk` opens, creates or writes lies
under the save directory and its relative components contain no `..`,
root, or platform prefix; when the torrent name has such a component,
both functions return a `Protocol{InvalidTorrent}` error before any
filesystem operation; when a touched file's relative path has one
(multi-file mode), `write_piece` returns `Protocol{InvalidTorrent}`, and
`verify_piece_on_disk` either does so or reports the piece absent
(`Ok(false)`, possible only when an earlier file of the piece was
missing) — in every case no path built from the offending entry is ever
opened. -/
theorem C1_path_traversal_rejected (m : Metainfo) (sd : RPath) (i : Nat) :
    (∀ op ∈ (write_piece m sd i).1, op.touchesFile = true →
      ∃ rest, op.path = sd ++ rest ∧ hasRejectedComponent rest = false) ∧
    (m.filesForPiece i ≠ [] → hasRejectedComponent m.info.name = true →
      ∃ e, write_piece m sd i = ([], some e) ∧ e.isInvalidTorrent = true) ∧
    (m.info.is_single_file = false →
      hasRejectedComponent m.info.name = false →
      (∃ f off len, (f, off, len) ∈ m.filesForPiece i ∧
        hasRejectedComponent f.path = true) →
      ∃ e, (write_piece m sd i).2 = some e ∧ e.isInvalidTorrent = true) ∧
    (∀ (sha1 : List Nat → Sha1Hash) (fs : RPath → Option (List Nat)),
      ∀ op ∈ (verify_piece_on_disk sha1 fs m sd i).1,
      ∃ rest, op.path = sd ++ rest ∧ hasRejectedComponent rest = false) ∧
    (∀ (sha1 : List Nat → Sha1Hash) (fs : RPath → Option (List Nat))
      (h0 : Sha1Hash), m.pieceHash i = some h0 → m.filesForPiece i ≠ [] →
      hasRejectedComponent m.info.name = true →
      ∃ e, verify_piece_on_disk sha1 fs m sd i = ([], Except.error e) ∧
        e.isInvalidTorrent = true) ∧
    (∀ (sha1 : List Nat → Sha1Hash) (fs : RPath → Option (List Nat)),
      m.info.is_single_file = false →
      hasRejectedComponent m.info.name = false →
      (∃ f off len, (f, off, len) ∈ m.filesForPiece i ∧
        hasRejectedComponent f.path = true) →
      (∃ e, (verify_piece_on_disk sha1 fs m sd i).2 = Except.error e ∧
        e.isInvalidTorrent = true) ∨
      (verify_piece_on_disk sha1 fs m sd i).2 = Except.ok false) := by
  refine ⟨?_, ?_, ?_, ?_, ?_, ?_⟩
  · intro op hop htouch
    exact writePieceGo_ops m sd (m.filesForPiece i) op hop htouch
  · intro hne hname
    exact writePieceGo_err_name m sd (m.filesForPiece i) hne hname
  · intro hsf hname hbad
    obtain ⟨f, off, len, hm, hb⟩ := hbad
    exact writePieceGo_err_file m sd hsf hname (m.filesForPiece i)
      f off len hm hb
  · intro sha1 fs op hop
    cases hh : m.pieceHash i with
    | none =>
        simp only [verify_piece_on_disk, hh] at hop
        simp at hop
    | some h0 =>
        cases hl : m.pieceLength i with
        | none =>
            simp only [verify_piece_on_disk, hh, hl] at hop
            simp at hop
        | some L =>
            simp only [verify_piece_on_disk, hh, hl] at hop
            exact verifyPieceGo_ops fs m sd (m.filesForPiece i) op hop
  · intro sha1 fs h0 hh hne hname
    obtain ⟨L, hl⟩ := pieceLength_some_of_pieceHash m i h0 hh
    obtain ⟨e, he, hi⟩ := verifyPieceGo_err_name fs m sd
      (m.filesForPiece i) hne hname
    refine ⟨e, ?_, hi⟩
    simp only [verify_piece_on_disk, hh, hl, he]
  · intro sha1 fs hsf hname hbad
    obtain ⟨f, off, len, hm, hb⟩ := hbad
    cases hh : m.pieceHash i with
    | none =>
        right
        simp only [verify_piece_on_disk, hh]
    | some h0 =>
        cases hl : m.pieceLength i with
        | none =>
            right
            simp only [verify_piece_on_disk, hh, hl]
        | some L =>
            rcases verifyPieceGo_bad_file fs m sd hsf hname
              (m.filesForPiece i) f off len hm hb with ⟨e, he, hi⟩ | hnone
            · left
              refine ⟨e, ?_, hi⟩
              simp only [verify_piece_on_disk, hh, hl, he]
            · right
              simp only [verify_piece_on_disk, hh, hl, hnone]

/-- Witness for C1: the `../../etc/passwd` torrent of the spec's scenario
is rejected by `write_piece` with an `InvalidTorrent` error. -/
theorem C1_path_traversal_rejected_witness :
    ∃ e, (write_piece demoEvilTorrent [Component.normal "dl"] 0).2 =
      some e ∧ e.isInvalidTorrent = true :=
  (C1_path_traversal_rejected demoEvilTorrent [Component.normal "dl"] 0).2.2.1
    rfl (by decide)
    ⟨{ path := [Component.parentDir, Component.parentDir,
        Component.normal "etc", Component.normal "passwd"], length := 4 },
      0, 4, by decide, by decide⟩

end GoshDL
